import Mathlib

/-!
# Verification of the type-generation utilities of `config-manager`

A shallow embedding of `src/core/type-generation-utils.ts` (value
classification, literal rendering, array/union type synthesis, the
property-value collector, the consistency validator and the interface
synthesizer), together with proofs of the specified properties.

Modelling conventions:

* A parsed JSON configuration value (`ConfigValue` in
  `src/lib/definitions/types.ts`) is the inductive `ConfigValue` below.
  JSON numbers are modelled as integers (the literal rendering
  `value.toString()` is the plain decimal rendering for them).
* A JavaScript object is an insertion-ordered association list;
  `Object.keys`/`Object.entries` iterate in that order.  Property lookup
  is first-occurrence lookup (a genuine JS object has no duplicate keys).
* A JavaScript `Set` is an insertion-ordered list without duplicates,
  where membership is SameValueZero equality.  For `Set<unknown>` as used
  by the collector, primitive values compare by value while arrays and
  objects compare by reference; distinct parsed environment documents
  share no references, so two non-primitive values reaching one set are
  never reference-equal.  `sameValueZero` below encodes exactly this.
* A JavaScript `Map` is an insertion-ordered association list;
  `Map.set` overwrites in place, `Map.get`/`Map.has` look keys up.
* A JavaScript string is a Lean `String`; `a + b` is `a ++ b`,
  `arr.join(s)` is `String.intercalate s arr`.
-/

namespace ConfigManager

/-- The tree of parsed JSON configuration values
(`ConfigValue` of `src/lib/definitions/types.ts`; numbers as integers). -/
inductive ConfigValue where
  | str (s : String)
  | num (n : Int)
  | bool (b : Bool)
  | null
  | arr (elems : List ConfigValue)
  | obj (fields : List (String × ConfigValue))

/-- `isPlainObject` (type-generation-utils.ts:11): a value that is an
object and not an array, `null` or a primitive. -/
def isPlainObject : ConfigValue → Bool
  | .obj _ => true
  | _ => false

/-- The single-quote character, written by code point to keep the
development free of quote-literal noise. -/
def squote : Char := Char.ofNat 39

/-- The backslash character. -/
def backslash : Char := Char.ofNat 92

/-- `escapeStringLiteral` (type-generation-utils.ts:22):
`str.replace(/'/g, "\\'")` replaces every single quote by
backslash-then-quote and touches nothing else. -/
def escapeStringLiteral (s : String) : String :=
  ⟨s.data.foldr (fun c acc => if c = squote then backslash :: squote :: acc else c :: acc) []⟩

/-- `valueToLiteralType` (type-generation-utils.ts:28).  The `undefined`
case cannot arise from parsed JSON and is not modelled; arrays and
objects fall into the `default` branch and render `unknown`. -/
def valueToLiteralType : ConfigValue → String
  | .null => "null"
  | .str s => String.singleton squote ++ escapeStringLiteral s ++ String.singleton squote
  | .num n => toString n
  | .bool b => if b then "true" else "false"
  | _ => "unknown"

/-- Insertion into a JS `Set<string>`: append unless already present. -/
def insertString (l : List String) (s : String) : List String :=
  if s ∈ l then l else l ++ [s]

/-- Collapse a list into a JS `Set<string>` (first occurrence kept,
insertion order preserved). -/
def dedupStrings (l : List String) : List String := l.foldl insertString []

/-- The closing step of `arrayToType` (type-generation-utils.ts:63-66):
join the unique element tokens (an empty set yields `unknown`) and wrap
as a readonly array type. -/
def arrayUnionWrap (tokens : List String) : String :=
  "readonly (" ++
    (if tokens.isEmpty then "unknown" else String.intercalate " | " tokens) ++
    ")[]"

/-- The element loop of `arrayToType` (type-generation-utils.ts:50-61):
render each element to a token (nested arrays recursively, objects as
`unknown`, primitives by `valueToLiteralType`) and fold the tokens into
the unique-token `Set<string>`. -/
def arrayElemTokens : List ConfigValue → List String → List String
  | [], acc => acc
  | ConfigValue.arr nested :: rest, acc =>
    arrayElemTokens rest (insertString acc (arrayUnionWrap (arrayElemTokens nested [])))
  | ConfigValue.obj _ :: rest, acc =>
    arrayElemTokens rest (insertString acc "unknown")
  | v :: rest, acc =>
    arrayElemTokens rest (insertString acc (valueToLiteralType v))

/-- `arrayToType` (type-generation-utils.ts:47). -/
def arrayToType (elems : List ConfigValue) : String :=
  arrayUnionWrap (arrayElemTokens elems [])

/-- The token one member of a multi-value set contributes to the union
built by `createUnionType` (type-generation-utils.ts:87-97). -/
def unionMemberToken : ConfigValue → String
  | .arr elems => arrayToType elems
  | .obj _ => "unknown"
  | v => valueToLiteralType v

/-- `createUnionType` (type-generation-utils.ts:72): empty set renders
`unknown`; a single value renders its own type; several values render
one token each, joined with pipes (the tokens are pushed into an array,
so identically rendered tokens are not collapsed). -/
def createUnionType (values : List ConfigValue) : String :=
  match values with
  | [] => "unknown"
  | [v] =>
    match v with
    | .arr elems => arrayToType elems
    | _ => valueToLiteralType v
  | _ => String.intercalate " | " (values.map unionMemberToken)

/-! ## The property-value collector (`collectPropertyValues`) -/

/-- An environment set: the `Record<string, ConfigObject>` handed to the
collector, the validator and the synthesizer, as an insertion-ordered
list of (environment name, parsed document) entries.  The functions
below re-check `isPlainObject` on every entry exactly as the source
does, so entries need not be objects. -/
abbrev EnvSet := List (String × ConfigValue)

/-- The collector's output map `Map<string, Set<unknown>>`. -/
abbrev PathMap := List (String × List ConfigValue)

/-- SameValueZero equality, as `Set<unknown>.add` uses it, specialised
to the values the collector inserts: primitives compare by value;
arrays and objects compare by reference, and the loader's parsed
documents share no references across the distinct environment entries
feeding one set, so two non-primitive values tested against each other
here are never reference-equal. -/
def sameValueZero : ConfigValue → ConfigValue → Bool
  | .str a, .str b => a == b
  | .num a, .num b => a == b
  | .bool a, .bool b => a == b
  | .null, .null => true
  | _, _ => false

/-- `Set<unknown>.add`: append unless a SameValueZero-equal member is
already present. -/
def setAdd (s : List ConfigValue) (v : ConfigValue) : List ConfigValue :=
  if s.any (fun w => sameValueZero w v) then s else s ++ [v]

/-- Collapse a list of inserted values into the `Set<unknown>` they
build up (insertion order, SameValueZero deduplication). -/
def svzDedup (l : List ConfigValue) : List ConfigValue := l.foldl setAdd []

/-- `envConfig[key]` under `key in envConfig`: first-occurrence field
lookup on an object's fields. -/
def lookupField (fields : List (String × ConfigValue)) (k : String) : Option ConfigValue :=
  (fields.find? (fun e => e.1 == k)).map (fun e => e.2)

/-- `Object.keys` of one document (empty for non-objects). -/
def objKeys : ConfigValue → List String
  | .obj fs => fs.map (fun e => e.1)
  | _ => []

/-- The `validConfigs` filter (type-generation-utils.ts:113-115): keep
the entries whose document is a plain object. -/
def validEnvs (configs : EnvSet) : EnvSet :=
  configs.filter (fun e => isPlainObject e.2)

/-- The key-union `Set<string>` (type-generation-utils.ts:120-125): all
keys of all valid documents, first-appearance order, deduplicated. -/
def allKeysOf (configs : EnvSet) : List String :=
  dedupStrings (List.flatten ((validEnvs configs).map (fun e => objKeys e.2)))

/-- One step of the per-key entry loop (type-generation-utils.ts:133-145),
leaf half: the value this environment contributes to `valuesForKey`
(skipped unless the document is an object defining `k` with a
non-object value). -/
def leafSelect (k : String) (e : String × ConfigValue) : Option ConfigValue :=
  match e.2 with
  | .obj fs =>
    match lookupField fs k with
    | some v => if isPlainObject v then none else some v
    | none => none
  | _ => none

/-- One step of the per-key entry loop (type-generation-utils.ts:133-145),
nested half: the entry this environment contributes to `nestedConfigs`
(kept only when the document is an object holding an object at `k`). -/
def nestedSelect (k : String) (e : String × ConfigValue) : Option (String × ConfigValue) :=
  match e.2 with
  | .obj fs =>
    match lookupField fs k with
    | some (ConfigValue.obj g) => some (e.1, ConfigValue.obj g)
    | _ => none
  | _ => none

/-- The raw sequence of non-object values the entry loop inserts into
`valuesForKey`, in environment order (before `Set` deduplication). -/
def rawLeafValuesAt (configs : EnvSet) (k : String) : List ConfigValue :=
  configs.filterMap (leafSelect k)

/-- `valuesForKey` after the entry loop: the inserted values as the
`Set<unknown>` they form. -/
def valuesForKey (configs : EnvSet) (k : String) : List ConfigValue :=
  svzDedup (rawLeafValuesAt configs k)

/-- `nestedConfigs` after the entry loop. -/
def nestedConfigsFor (configs : EnvSet) (k : String) : EnvSet :=
  configs.filterMap (nestedSelect k)

/-- `Map.get` (also `Map.has` via `Option.isSome`). -/
def mapGet (m : PathMap) (k : String) : Option (List ConfigValue) :=
  (m.find? (fun e => e.1 == k)).map (fun e => e.2)

/-- `Map.set`: overwrite in place if the key is present, else append. -/
def mapSet (m : PathMap) (k : String) (v : List ConfigValue) : PathMap :=
  if m.any (fun e => e.1 = k) then m.map (fun e => if e.1 = k then (k, v) else e)
  else m ++ [(k, v)]

/-- The merge loop of type-generation-utils.ts:155-157: `Map.set` every
entry of `b` into `a`. -/
def mergeMaps (a b : PathMap) : PathMap :=
  b.foldl (fun acc e => mapSet acc e.1 e.2) a

/-- Path extension (type-generation-utils.ts:129):
`currentPath ? currentPath + '.' + key : key`. -/
def joinPath (pre k : String) : String := if pre = "" then k else pre ++ "." ++ k

/-- Termination measure for the collector and the synthesizer: total
size of the documents of an environment set. -/
noncomputable def envSize (configs : EnvSet) : Nat :=
  (configs.map (fun e => sizeOf e.2)).sum

theorem sum_filterMap_le {α β : Type} (f : α → Option β) (g : α → Nat) (h : β → Nat)
    (l : List α) (mono : ∀ a b, f a = some b → h b ≤ g a) :
    ((l.filterMap f).map h).sum ≤ (l.map g).sum := by
  induction l with
  | nil => simp
  | cons a t ih =>
    cases hfa : f a with
    | none =>
      rw [List.filterMap_cons_none hfa]
      simp only [List.map_cons, List.sum_cons]
      omega
    | some b =>
      rw [List.filterMap_cons_some hfa]
      simp only [List.map_cons, List.sum_cons]
      have := mono a b hfa
      omega

theorem sum_filterMap_lt {α β : Type} (f : α → Option β) (g : α → Nat) (h : β → Nat)
    (l : List α) (mono : ∀ a b, f a = some b → h b < g a)
    (ne : l.filterMap f ≠ []) :
    ((l.filterMap f).map h).sum < (l.map g).sum := by
  induction l with
  | nil => simp at ne
  | cons a t ih =>
    cases hfa : f a with
    | none =>
      rw [List.filterMap_cons_none hfa] at ne ⊢
      have := ih ne
      simp only [List.map_cons, List.sum_cons]
      omega
    | some b =>
      rw [List.filterMap_cons_some hfa]
      simp only [List.map_cons, List.sum_cons]
      have h1 := mono a b hfa
      have h2 := sum_filterMap_le f g h t (fun a b hb => Nat.le_of_lt (mono a b hb))
      omega

theorem lookupField_mem {fs : List (String × ConfigValue)} {k : String} {v : ConfigValue}
    (h : lookupField fs k = some v) : ∃ pk, (pk, v) ∈ fs := by
  unfold lookupField at h
  cases hf : fs.find? (fun e => e.1 == k) with
  | none => rw [hf] at h; exact absurd h (by simp)
  | some p =>
    rw [hf] at h
    have hp : p ∈ fs := List.mem_of_find?_eq_some hf
    refine ⟨p.1, ?_⟩
    have hv : p.2 = v := by simpa using h
    rw [← hv]
    simpa using hp

theorem nestedSelect_size_lt (k : String) (e : String × ConfigValue)
    (b : String × ConfigValue) (hb : nestedSelect k e = some b) :
    sizeOf b.2 < sizeOf e.2 := by
  obtain ⟨name, doc⟩ := e
  cases doc with
  | obj fs =>
    simp only [nestedSelect] at hb
    cases hlk : lookupField fs k with
    | none => rw [hlk] at hb; exact absurd hb (by simp)
    | some v =>
      rw [hlk] at hb
      cases v with
      | obj g =>
        obtain rfl : b = (name, ConfigValue.obj g) := by simpa using hb.symm
        obtain ⟨pk, hmem⟩ := lookupField_mem hlk
        have hsz : sizeOf (pk, ConfigValue.obj g) < sizeOf fs := List.sizeOf_lt_of_mem hmem
        simp only [Prod.mk.sizeOf_spec, ConfigValue.obj.sizeOf_spec] at hsz ⊢
        omega
      | str s => exact absurd hb (by simp)
      | num n => exact absurd hb (by simp)
      | bool x => exact absurd hb (by simp)
      | null => exact absurd hb (by simp)
      | arr es => exact absurd hb (by simp)
  | str s => exact absurd hb (by simp [nestedSelect])
  | num n => exact absurd hb (by simp [nestedSelect])
  | bool x => exact absurd hb (by simp [nestedSelect])
  | null => exact absurd hb (by simp [nestedSelect])
  | arr es => exact absurd hb (by simp [nestedSelect])

theorem envSize_nestedConfigsFor_lt (configs : EnvSet) (k : String)
    (h : nestedConfigsFor configs k ≠ []) :
    envSize (nestedConfigsFor configs k) < envSize configs := by
  unfold envSize nestedConfigsFor
  exact sum_filterMap_lt (nestedSelect k) (fun e => sizeOf e.2) (fun e => sizeOf e.2)
    configs (fun a b hb => nestedSelect_size_lt k a b hb) h

mutual

/-- `collectPropertyValues` (type-generation-utils.ts:106): walk the
environment documents in lock-step and map every dotted property path
with at least one non-object occurrence to the `Set` of those
occurrences; object occurrences are routed into a nested environment
set and processed recursively, their results merged into the output. -/
def collectPropertyValues (configs : EnvSet) (currentPath : String) : PathMap :=
  if (validEnvs configs).isEmpty then []
  else collectGo configs currentPath (allKeysOf configs) []
termination_by (envSize configs, 1, 0)
decreasing_by
  apply Prod.Lex.right
  exact Prod.Lex.left _ _ (by omega)

/-- The per-key loop of `collectPropertyValues`
(type-generation-utils.ts:128-159), with the output map as
accumulator. -/
def collectGo (configs : EnvSet) (currentPath : String) (keys : List String)
    (acc : PathMap) : PathMap :=
  match keys with
  | [] => acc
  | k :: rest =>
    let fullPath := joinPath currentPath k
    let vals := valuesForKey configs k
    let acc1 := if vals.isEmpty then acc else mapSet acc fullPath vals
    let nested := nestedConfigsFor configs k
    let acc2 := if h : nested.isEmpty then acc1
      else mergeMaps acc1 (collectPropertyValues nested fullPath)
    collectGo configs currentPath rest acc2
termination_by (envSize configs, 0, keys.length + 1)
decreasing_by
  · apply Prod.Lex.left
    exact envSize_nestedConfigsFor_lt _ _ (by simpa using h)
  · apply Prod.Lex.right
    apply Prod.Lex.right
    simp only [List.length_cons]
    omega

end

/-! ## The consistency validator (`validateConfigurationConsistency`) -/

/-- The recursive walk of `getConfigPaths`
(type-generation-utils.ts:168-184) in insertion order: for every entry
add its full path, and for object values also every nested path. -/
def getPathsList : List (String × ConfigValue) → String → List String
  | [], _ => []
  | (k, ConfigValue.obj g) :: rest, pre =>
    joinPath pre k :: (getPathsList g (joinPath pre k) ++ getPathsList rest pre)
  | (k, _) :: rest, pre => joinPath pre k :: getPathsList rest pre

/-- `getConfigPaths` of one document's fields: the `Set<string>` the
walk builds (first occurrence kept). -/
def getConfigPaths (fields : List (String × ConfigValue)) (pre : String) : List String :=
  dedupStrings (getPathsList fields pre)

/-- `configs[env]`: first-occurrence lookup of an environment's document. -/
def envLookup (configs : EnvSet) (env : String) : Option ConfigValue :=
  (configs.find? (fun e => e.1 == env)).map (fun e => e.2)

/-- The comparison set (type-generation-utils.ts:200-204):
`Object.keys(configs)` filtered to drop, when `excludeDefault` is set,
the name `default`, and to keep only names mapped to plain objects. -/
def comparisonEnvs (configs : EnvSet) (excludeDefault : Bool) : List String :=
  (dedupStrings (configs.map (fun e => e.1))).filter (fun env =>
    (!excludeDefault || env != "default") &&
      (match envLookup configs env with
       | some d => isPlainObject d
       | none => false))

/-- `pathsByEnv.get(env)` (type-generation-utils.ts:211-218): the path
set of one environment's document (empty unless it is an object). -/
def envPathSet (configs : EnvSet) (env : String) : List String :=
  match envLookup configs env with
  | some (ConfigValue.obj fs) => getConfigPaths fs ""
  | _ => []

/-- `allPaths` (type-generation-utils.ts:221-226): the union of the
comparison environments' path sets, in discovery order. -/
def allPathsOf (configs : EnvSet) (excludeDefault : Bool) : List String :=
  dedupStrings
    (List.flatten ((comparisonEnvs configs excludeDefault).map
      (fun env => envPathSet configs env)))

/-- One inconsistency found by the loop of
type-generation-utils.ts:230-243: the path together with the partition
of the comparison environments into those that have it and those that
lack it. -/
structure ConsistencyIssue where
  path : String
  envsWith : List String
  missingEnvs : List String
deriving Repr, DecidableEq

/-- The partition loop (type-generation-utils.ts:230-243): for every
collected path, split the comparison environments into
`envsWithPath` and `missingEnvs`; an issue is produced exactly when
`missingEnvs` is non-empty. -/
def consistencyIssues (configs : EnvSet) (excludeDefault : Bool) : List ConsistencyIssue :=
  let envs := comparisonEnvs configs excludeDefault
  (allPathsOf configs excludeDefault).filterMap (fun p =>
    let ew := envs.filter (fun env => (envPathSet configs env).contains p)
    let me := envs.filter (fun env => !(ew.contains env))
    if me.isEmpty then none else some ⟨p, ew, me⟩)

/-- The diagnostic string pushed for one issue
(type-generation-utils.ts:239-241). -/
def issueMessage (i : ConsistencyIssue) : String :=
  "Property " ++ String.singleton squote ++ i.path ++ String.singleton squote ++
    " exists in [" ++ String.intercalate ", " i.envsWith ++
    "] but missing in [" ++ String.intercalate ", " i.missingEnvs ++ "]"

/-- The validator's result record (`ConsistencyValidationResult`,
type-generation-utils.ts:190-193). -/
structure ConsistencyValidationResult where
  valid : Bool
  errors : List String
deriving Repr, DecidableEq

/-- `validateConfigurationConsistency` (type-generation-utils.ts:195):
a pure report — fewer than two comparison environments yields the
trivially valid empty report, otherwise `valid` is exactly the
emptiness of the diagnostics list. -/
def validateConfigurationConsistency (configs : EnvSet) (excludeDefault : Bool := true) :
    ConsistencyValidationResult :=
  let envs := comparisonEnvs configs excludeDefault
  if envs.length < 2 then ⟨true, []⟩
  else
    let errs := (consistencyIssues configs excludeDefault).map issueMessage
    ⟨errs.isEmpty, errs⟩

/-! ## The interface synthesizer (`generateInterfaceProperties`) -/

/-- `'  '.repeat(depth)` (type-generation-utils.ts:260). -/
def indentOf (depth : Nat) : String := String.join (List.replicate depth "  ")

/-- Insertion step of `Array.prototype.sort` on the deduplicated key
set (lexicographic string order; the input has no duplicates, so
stability is irrelevant). -/
def insertSorted (s : String) : List String → List String
  | [] => [s]
  | t :: ts => if s ≤ t then s :: t :: ts else t :: insertSorted s ts

/-- `Array.from(allKeys).sort()` (type-generation-utils.ts:279). -/
def sortStrings (l : List String) : List String := l.foldr insertSorted []

mutual

/-- `generateInterfaceProperties` (type-generation-utils.ts:254): emit
the brace-delimited body, one readonly member per sorted key — a union
of the collected values when the key's path is in the collected map, a
recursively synthesized nested body when some environment holds an
object there, and the fallback member otherwise. -/
def generateInterfaceProperties (configs : EnvSet) (propertyValues : PathMap)
    (currentPath : String) (depth : Nat) : String :=
  if (validEnvs configs).isEmpty then "Record<string, unknown>"
  else
    "\x7b\n" ++
      String.intercalate "\n"
        (genProps configs propertyValues currentPath depth
          (sortStrings (allKeysOf configs))) ++
      "\n" ++ indentOf depth ++ "\x7d"
termination_by (envSize configs, 1, 0)
decreasing_by
  apply Prod.Lex.right
  exact Prod.Lex.left _ _ (by omega)

/-- The per-key loop of `generateInterfaceProperties`
(type-generation-utils.ts:279-312), producing the property lines in
order. -/
def genProps (configs : EnvSet) (propertyValues : PathMap) (currentPath : String)
    (depth : Nat) : List String → List String
  | [] => []
  | k :: rest =>
    let fullPath := joinPath currentPath k
    let line :=
      match mapGet propertyValues fullPath with
      | some values =>
        indentOf depth ++ "  readonly " ++ k ++ ": " ++ createUnionType values
      | none =>
        let nested := nestedConfigsFor configs k
        if h : nested.isEmpty then indentOf depth ++ "  readonly " ++ k ++ ": unknown"
        else
          indentOf depth ++ "  readonly " ++ k ++ ": " ++
            generateInterfaceProperties nested propertyValues fullPath (depth + 1)
    line :: genProps configs propertyValues currentPath depth rest
termination_by keys => (envSize configs, 0, keys.length + 1)
decreasing_by
  · apply Prod.Lex.left
    exact envSize_nestedConfigsFor_lt _ _ (by simpa using h)
  · apply Prod.Lex.right
    apply Prod.Lex.right
    simp only [List.length_cons]
    omega

end

mutual

/-- Instrumentation of the dead branch of `generateInterfaceProperties`
(type-generation-utils.ts:309): `true` exactly when some evaluation
step, at any recursion depth, takes the `readonly <key>: unknown`
fallback (the key's path absent from the collected map and no
environment holding an object at the key).  The recursion mirrors
`generateInterfaceProperties`/`genProps` branch for branch. -/
def generateHitsFallback (configs : EnvSet) (propertyValues : PathMap)
    (currentPath : String) : Bool :=
  if (validEnvs configs).isEmpty then false
  else
    goFallback configs propertyValues currentPath (sortStrings (allKeysOf configs))
termination_by (envSize configs, 1, 0)
decreasing_by
  apply Prod.Lex.right
  exact Prod.Lex.left _ _ (by omega)

/-- The per-key loop of `generateHitsFallback`, mirroring `genProps`. -/
def goFallback (configs : EnvSet) (propertyValues : PathMap)
    (currentPath : String) : List String → Bool
  | [] => false
  | k :: rest =>
    let fullPath := joinPath currentPath k
    let here :=
      match mapGet propertyValues fullPath with
      | some _ => false
      | none =>
        let nested := nestedConfigsFor configs k
        if h : nested.isEmpty then true
        else generateHitsFallback nested propertyValues fullPath
    here || goFallback configs propertyValues currentPath rest
termination_by keys => (envSize configs, 0, keys.length + 1)
decreasing_by
  · apply Prod.Lex.left
    exact envSize_nestedConfigsFor_lt _ _ (by simpa using h)
  · apply Prod.Lex.right
    apply Prod.Lex.right
    simp only [List.length_cons]
    omega

end

/-! ## Derived notions used in the statements -/

/-- A primitive (non-container) value: what the collector inserts into
a value set when it is not an array. -/
def isPrimitive : ConfigValue → Bool
  | .arr _ => false
  | .obj _ => false
  | _ => true

/-- An array value. -/
def isArrayValue : ConfigValue → Bool
  | .arr _ => true
  | _ => false

/-! ## General lemmas about the rendering functions -/

/-- `escapeStringLiteral` rewrites every single quote to
backslash-quote and leaves every other character unchanged. -/
theorem escapeStringLiteral_data (s : String) :
    (escapeStringLiteral s).data =
      s.data.flatMap (fun c => if c = squote then [backslash, squote] else [c]) := by
  show s.data.foldr (fun c acc => if c = squote then backslash :: squote :: acc else c :: acc) [] = _
  induction s.data with
  | nil => rfl
  | cons c t ih =>
    simp only [List.foldr_cons, List.flatMap_cons, ih]
    by_cases hc : c = squote
    · simp [hc]
    · simp [hc]

/-- For a primitive member, the union token is its literal type. -/
theorem unionMemberToken_primitive (v : ConfigValue) (h : isPrimitive v = true) :
    unionMemberToken v = valueToLiteralType v := by
  cases v <;> first
    | rfl
    | simp [isPrimitive] at h

theorem intercalate_singleton (sep a : String) : String.intercalate sep [a] = a := rfl

/-- All ways of inserting an element into a list. -/
def insertionsOf {α : Type} (a : α) : List α → List (List α)
  | [] => [[a]]
  | b :: t => (a :: b :: t) :: (insertionsOf a t).map (fun l => b :: l)

/-- All permutations of a list (kernel-computable). -/
def permsOf {α : Type} : List α → List (List α)
  | [] => [[]]
  | a :: t => (permsOf t).flatMap (insertionsOf a)

/-! ## General lemmas about sets and maps -/

theorem mem_insertString (l : List String) (s a : String) :
    a ∈ insertString l s ↔ a ∈ l ∨ a = s := by
  unfold insertString
  by_cases h : s ∈ l
  · simp only [if_pos h]
    constructor
    · exact fun ha => Or.inl ha
    · rintro (ha | rfl)
      · exact ha
      · exact h
  · simp [if_neg h]

theorem mem_foldl_insertString (l : List String) (acc : List String) (a : String) :
    a ∈ l.foldl insertString acc ↔ a ∈ acc ∨ a ∈ l := by
  induction l generalizing acc with
  | nil => simp
  | cons s t ih =>
    simp only [List.foldl_cons, ih, mem_insertString, List.mem_cons]
    tauto

theorem mem_dedupStrings (l : List String) (a : String) :
    a ∈ dedupStrings l ↔ a ∈ l := by
  unfold dedupStrings
  rw [mem_foldl_insertString]
  simp

theorem mapGet_nil (q : String) : mapGet [] q = none := rfl

theorem mapGet_cons (e : String × List ConfigValue) (m : PathMap) (q : String) :
    mapGet (e :: m) q = if e.1 = q then some e.2 else mapGet m q := by
  unfold mapGet
  by_cases h : e.1 = q
  · rw [List.find?_cons_of_pos _ (by simp [h]), if_pos h]
    rfl
  · rw [List.find?_cons_of_neg _ (by simp [h]), if_neg h]

theorem mapSet_map_aux (t : PathMap) (k : String) (v : List ConfigValue) (q : String) :
    mapGet (t.map (fun e => if e.1 = k then (k, v) else e)) q =
      if q = k then (if t.any (fun e => e.1 = k) then some v else none)
      else mapGet t q := by
  induction t with
  | nil => simp [mapGet_nil]
  | cons e t ih =>
    simp only [List.map_cons, mapGet_cons, List.any_cons, ih]
    by_cases he : e.1 = k
    · by_cases hq : q = k
      · subst hq
        simp [he]
      · have hkq : ¬ k = q := fun h => hq h.symm
        simp [he, hq, hkq]
    · by_cases hq : q = k
      · subst hq
        simp only [he]
        cases ht : t.any (fun e => decide (e.1 = q)) <;> simp [ht, he]
      · simp [he, hq]

theorem mapGet_mapSet (m : PathMap) (k : String) (v : List ConfigValue) (q : String) :
    mapGet (mapSet m k v) q = if q = k then some v else mapGet m q := by
  unfold mapSet
  by_cases hany : m.any (fun e => e.1 = k)
  · rw [if_pos hany, mapSet_map_aux]
    simp [hany]
  · rw [if_neg hany]
    induction m with
    | nil =>
      simp only [List.nil_append, mapGet_cons, mapGet_nil]
      by_cases hq : q = k
      · subst hq
        simp
      · have hkq : ¬ k = q := fun h => hq h.symm
        simp [hq, hkq]
    | cons e t ih =>
      simp only [List.any_cons, Bool.or_eq_true, decide_eq_true_eq] at hany
      push_neg at hany
      simp only [List.cons_append, mapGet_cons]
      rw [ih (by simpa using hany.2)]
      by_cases heq : e.1 = q
      · have : ¬ q = k := fun h => hany.1 (heq.trans h)
        simp [heq, this]
      · simp [heq]

theorem mapGet_mapSet_same (m : PathMap) (k : String) (v : List ConfigValue) :
    mapGet (mapSet m k v) k = some v := by
  rw [mapGet_mapSet]
  simp

theorem mapGet_mapSet_other (m : PathMap) (k : String) (v : List ConfigValue)
    (q : String) (h : q ≠ k) : mapGet (mapSet m k v) q = mapGet m q := by
  rw [mapGet_mapSet]
  simp [h]

theorem mem_mapSet (m : PathMap) (k : String) (v : List ConfigValue)
    (e : String × List ConfigValue) (he : e ∈ mapSet m k v) :
    e = (k, v) ∨ e ∈ m := by
  unfold mapSet at he
  by_cases hany : m.any (fun e => e.1 = k)
  · rw [if_pos hany] at he
    rw [List.mem_map] at he
    obtain ⟨a, ha, hae⟩ := he
    by_cases hk : a.1 = k
    · rw [if_pos hk] at hae
      exact Or.inl hae.symm
    · rw [if_neg hk] at hae
      exact Or.inr (hae ▸ ha)
  · rw [if_neg hany] at he
    rcases List.mem_append.mp he with h | h
    · exact Or.inr h
    · simp only [List.mem_singleton] at h
      exact Or.inl h

theorem mem_mergeMaps (a b : PathMap) (e : String × List ConfigValue)
    (he : e ∈ mergeMaps a b) : e ∈ a ∨ e ∈ b := by
  induction b generalizing a with
  | nil => exact Or.inl he
  | cons x t ih =>
    have he' : e ∈ mergeMaps (mapSet a x.1 x.2) t := he
    rcases ih _ he' with h | h
    · rcases mem_mapSet _ _ _ _ h with h1 | h1
      · exact Or.inr (by simp [h1])
      · exact Or.inl h1
    · exact Or.inr (List.mem_cons_of_mem x h)

theorem mapGet_mergeMaps_isSome (a b : PathMap) (q : String) :
    (mapGet (mergeMaps a b) q).isSome ↔ (mapGet a q).isSome ∨ (mapGet b q).isSome := by
  induction b generalizing a with
  | nil => simp [mergeMaps, mapGet_nil]
  | cons x t ih =>
    show (mapGet (mergeMaps (mapSet a x.1 x.2) t) q).isSome ↔ _
    rw [ih, mapGet_cons, mapGet_mapSet]
    by_cases hq : q = x.1
    · simp [hq]
    · have hxq : ¬ x.1 = q := fun h => hq h.symm
      simp [hq, hxq]

theorem mapGet_mem {m : PathMap} {q : String} {s : List ConfigValue}
    (h : mapGet m q = some s) : (q, s) ∈ m := by
  unfold mapGet at h
  cases hf : m.find? (fun e => e.1 == q) with
  | none => rw [hf] at h; exact absurd h (by simp)
  | some e =>
    rw [hf] at h
    have he : e ∈ m := List.mem_of_find?_eq_some hf
    have hq : e.1 = q := by simpa using List.find?_some hf
    have hs : e.2 = s := by simpa using h
    have : e = (q, s) := by
      rw [← hq, ← hs]
    rw [← this]
    exact he

/-! ## Claim C2 -/

/-- C2 counterexample: the value set holding two distinct raw objects
(a JS `Set<unknown>` keeps both, objects never being
SameValueZero-equal) has more than one member, and `createUnionType`
renders it as `unknown | unknown`: the member tokens are the two
identical strings `unknown`, so the claim that a multi-value union
never repeats a member token is false on this input. -/
theorem createUnionType_duplicate_tokens_cex :
    1 < ([ConfigValue.obj [], ConfigValue.obj [("a", ConfigValue.num 1)]] : List ConfigValue).length ∧
    createUnionType [ConfigValue.obj [], ConfigValue.obj [("a", ConfigValue.num 1)]] =
      "unknown | unknown" ∧
    ([ConfigValue.obj [], ConfigValue.obj [("a", ConfigValue.num 1)]].map unionMemberToken) =
      ["unknown", "unknown"] ∧
    ¬ (["unknown", "unknown"] : List String).Nodup := by
  refine ⟨by simp, rfl, rfl, by simp⟩

/-- C2 amended: `createUnionType` performs no deduplication by rendered
token for a multi-value set — it renders one token per set member (in
set order) and joins them, so two distinct raw values rendering to the
same token each keep their own occurrence; rendered-token
deduplication happens only inside `arrayToType`. -/
theorem createUnionType_token_per_member (values : List ConfigValue)
    (h : 1 < values.length) :
    createUnionType values = String.intercalate " | " (values.map unionMemberToken) ∧
    (values.map unionMemberToken).length = values.length := by
  refine ⟨?_, values.length_map unionMemberToken⟩
  match values with
  | [] => simp at h
  | [v] => simp at h
  | v :: w :: rest => rfl

/-- C2 amended, instantiated: the two-object set from the
counterexample renders one token per member. -/
theorem createUnionType_token_per_member_witness :
    createUnionType [ConfigValue.obj [], ConfigValue.obj [("a", ConfigValue.num 1)]] =
      String.intercalate " | "
        ([ConfigValue.obj [], ConfigValue.obj [("a", ConfigValue.num 1)]].map unionMemberToken) ∧
    ([ConfigValue.obj [], ConfigValue.obj [("a", ConfigValue.num 1)]].map unionMemberToken).length =
      ([ConfigValue.obj [], ConfigValue.obj [("a", ConfigValue.num 1)]] : List ConfigValue).length :=
  createUnionType_token_per_member _ (by simp)

/-! ## Claim C7 -/

/-- C7: a value set of `k` distinct primitive values synthesizes a
union of exactly `k` members, one correctly rendered literal per value
in set order (strings single-quoted with single quotes
backslash-escaped and no other character altered — the last conjunct —
numbers and booleans in decimal/keyword form and `null` as `null`, by
definition of `valueToLiteralType`); the output is a pure function of
the set, hence identical on repeated runs over the same input. -/
theorem createUnionType_primitive_union (vs : List ConfigValue)
    (hne : vs ≠ []) (hprim : ∀ v ∈ vs, isPrimitive v = true) (hnd : vs.Nodup) :
    createUnionType vs = String.intercalate " | " (vs.map valueToLiteralType) ∧
    (vs.map valueToLiteralType).length = vs.length ∧
    ∀ s, (escapeStringLiteral s).data =
      s.data.flatMap (fun c => if c = squote then [backslash, squote] else [c]) := by
  refine ⟨?_, vs.length_map valueToLiteralType, fun s => escapeStringLiteral_data s⟩
  match vs with
  | [] => exact absurd rfl hne
  | [v] =>
    have hp := hprim v (by simp)
    have h1 : String.intercalate " | " (List.map valueToLiteralType [v]) =
        valueToLiteralType v := rfl
    rw [h1]
    cases v <;> first
      | rfl
      | simp [isPrimitive] at hp
  | v :: w :: rest =>
    show String.intercalate " | " ((v :: w :: rest).map unionMemberToken) = _
    rw [List.map_congr_left (fun a ha => unionMemberToken_primitive a (hprim a ha))]

/-- C7 instantiated at the set `{'a', 3, true, null}`. -/
theorem createUnionType_primitive_union_witness :
    createUnionType [ConfigValue.str "a", ConfigValue.num 3, ConfigValue.bool true, ConfigValue.null] =
      String.intercalate " | "
        ([ConfigValue.str "a", ConfigValue.num 3, ConfigValue.bool true, ConfigValue.null].map valueToLiteralType) ∧
    ([ConfigValue.str "a", ConfigValue.num 3, ConfigValue.bool true, ConfigValue.null].map valueToLiteralType).length =
      ([ConfigValue.str "a", ConfigValue.num 3, ConfigValue.bool true, ConfigValue.null] : List ConfigValue).length ∧
    ∀ s, (escapeStringLiteral s).data =
      s.data.flatMap (fun c => if c = squote then [backslash, squote] else [c]) :=
  createUnionType_primitive_union _ (by simp) (by intro v hv; fin_cases hv <;> rfl) (by simp)

/-! ## Claim C1 -/

/-- The `default` environment's array at `features` in the concrete
case of the claim. -/
def c1ArrDefault : ConfigValue :=
  ConfigValue.arr [ConfigValue.str "config", ConfigValue.str "logging"]

/-- The `prod` environment's array at `features` in the concrete case
of the claim. -/
def c1ArrProd : ConfigValue :=
  ConfigValue.arr [ConfigValue.str "config", ConfigValue.str "logging",
    ConfigValue.str "metrics", ConfigValue.str "monitoring"]

/-- The claim's concrete environment set. -/
def c1Envs : EnvSet :=
  [("default", ConfigValue.obj [("features", c1ArrDefault)]),
   ("prod", ConfigValue.obj [("features", c1ArrProd)])]

/-- C1 counterexample: on the claim's own concrete case the collector
keeps each environment's array as its own set member, and
`createUnionType` renders one bracketed array type per member — the
result is a union of two bracketed types, not a single bracketed type;
in particular it differs from every single bracketed type whose
element union enumerates the four distinct literals (in any order). -/
theorem array_union_not_flattened_cex :
    mapGet (collectPropertyValues c1Envs "") "features" = some [c1ArrDefault, c1ArrProd] ∧
    createUnionType [c1ArrDefault, c1ArrProd] =
      "readonly ('config' | 'logging')[] | readonly ('config' | 'logging' | 'metrics' | 'monitoring')[]" ∧
    "readonly ('config' | 'logging')[] | readonly ('config' | 'logging' | 'metrics' | 'monitoring')[]" ∉
      (permsOf ["'config'", "'logging'", "'metrics'", "'monitoring'"]).map
        (fun ts => "readonly (" ++ String.intercalate " | " ts ++ ")[]") := by
  refine ⟨?_, ?_, by decide⟩
  · simp [c1Envs, c1ArrDefault, c1ArrProd, collectPropertyValues, collectGo, allKeysOf,
      validEnvs, dedupStrings, insertString, objKeys, valuesForKey, rawLeafValuesAt,
      leafSelect, nestedSelect, nestedConfigsFor, svzDedup, setAdd, sameValueZero,
      lookupField, mapGet, mapSet, mergeMaps, joinPath, isPlainObject]
  · simp only [c1ArrDefault, c1ArrProd, createUnionType, unionMemberToken, List.map_cons,
      List.map_nil, arrayToType, arrayElemTokens, arrayUnionWrap, insertString] <;> rfl

/-- C1 amended: for a value set whose members are arrays (one per
environment), the synthesized type is the pipe-join of one bracketed
array type per member — each member's elements deduplicated by
rendered token within its own bracket — rather than one flattened
bracket. -/
theorem createUnionType_bracket_per_array (vs : List ConfigValue)
    (hne : vs ≠ []) (harr : ∀ v ∈ vs, isArrayValue v = true) :
    createUnionType vs = String.intercalate " | " (vs.map unionMemberToken) := by
  match vs with
  | [] => exact absurd rfl hne
  | [v] =>
    have ha := harr v (by simp)
    have h1 : String.intercalate " | " (List.map unionMemberToken [v]) =
        unionMemberToken v := rfl
    rw [h1]
    cases v <;> first
      | rfl
      | simp [isArrayValue] at ha
  | v :: w :: rest => rfl

/-- C1 amended, instantiated at the claim's concrete case: the
synthesized type is the union of the two per-environment bracketed
types (all four literals appear, but across two brackets). -/
theorem createUnionType_bracket_per_array_witness :
    createUnionType [c1ArrDefault, c1ArrProd] =
      String.intercalate " | " ([c1ArrDefault, c1ArrProd].map unionMemberToken) :=
  createUnionType_bracket_per_array _ (by simp)
    (by intro v hv; fin_cases hv <;> rfl)

/-! ## Claim C3 -/

/-- A structurally equal array value appearing in two parsed
environment documents. -/
def c3Arr : ConfigValue := ConfigValue.arr [ConfigValue.str "a"]

/-- Two environments holding structurally equal (reference-distinct)
arrays at the same path. -/
def c3Envs : EnvSet :=
  [("default", ConfigValue.obj [("tags", c3Arr)]),
   ("prod", ConfigValue.obj [("tags", c3Arr)])]

/-- C3 counterexample: the collector's `Set<unknown>` deduplicates by
SameValueZero, under which two structurally equal arrays from distinct
documents are distinct members — the set at `tags` holds the equal
array twice, refuting deduplication by deep/structural equality. -/
theorem collector_keeps_equal_arrays_cex :
    mapGet (collectPropertyValues c3Envs "") "tags" = some [c3Arr, c3Arr] ∧
    ¬ ([c3Arr, c3Arr] : List ConfigValue).Nodup := by
  constructor
  · simp [c3Envs, c3Arr, collectPropertyValues, collectGo, allKeysOf, validEnvs,
      dedupStrings, insertString, objKeys, valuesForKey, rawLeafValuesAt, leafSelect,
      nestedSelect, nestedConfigsFor, svzDedup, setAdd, sameValueZero, lookupField,
      mapGet, mapSet, mergeMaps, joinPath, isPlainObject]
  · simp

theorem svzDistinct_setAdd (s : List ConfigValue) (v : ConfigValue)
    (h : s.Pairwise (fun w v => sameValueZero w v = false)) :
    (setAdd s v).Pairwise (fun w v => sameValueZero w v = false) := by
  unfold setAdd
  by_cases hany : s.any (fun w => sameValueZero w v)
  · rwa [if_pos hany]
  · rw [if_neg hany]
    rw [List.pairwise_append]
    refine ⟨h, by simp, ?_⟩
    intro a ha b hb
    simp only [List.mem_singleton] at hb
    subst hb
    simp only [List.any_eq_true] at hany
    push_neg at hany
    simpa using hany a ha

theorem svzDistinct_svzDedup (l : List ConfigValue) :
    (svzDedup l).Pairwise (fun w v => sameValueZero w v = false) := by
  unfold svzDedup
  suffices h : ∀ acc : List ConfigValue,
      acc.Pairwise (fun w v => sameValueZero w v = false) →
      (l.foldl setAdd acc).Pairwise (fun w v => sameValueZero w v = false) from
    h [] (by simp)
  induction l with
  | nil => intro acc hacc; exact hacc
  | cons x t ih =>
    intro acc hacc
    rw [List.foldl_cons]
    exact ih _ (svzDistinct_setAdd _ _ hacc)

theorem collect_entries_svzDistinct :
    ∀ (n : Nat) (configs : EnvSet) (pre : String), envSize configs ≤ n →
      ∀ e ∈ collectPropertyValues configs pre,
        e.2.Pairwise (fun w v => sameValueZero w v = false) := by
  intro n
  induction n using Nat.strong_induction_on with
  | _ n ih =>
    intro configs pre hsize e he
    unfold collectPropertyValues at he
    by_cases hv : (validEnvs configs).isEmpty
    · rw [if_pos hv] at he
      exact absurd he (by simp)
    · rw [if_neg hv] at he
      have go : ∀ (keys : List String) (acc : PathMap),
          (∀ e ∈ acc, e.2.Pairwise (fun w v => sameValueZero w v = false)) →
          ∀ e ∈ collectGo configs pre keys acc,
            e.2.Pairwise (fun w v => sameValueZero w v = false) := by
        intro keys
        induction keys with
        | nil =>
          intro acc hacc e he
          rw [collectGo] at he
          exact hacc e he
        | cons k rest ihk =>
          intro acc hacc e he
          rw [collectGo] at he
          refine ihk _ ?_ e he
          intro x hx
          have hacc1 : ∀ x ∈ (if (valuesForKey configs k).isEmpty then acc
              else mapSet acc (joinPath pre k) (valuesForKey configs k)),
              x.2.Pairwise (fun w v => sameValueZero w v = false) := by
            intro x hx
            by_cases hvk : (valuesForKey configs k).isEmpty
            · rw [if_pos hvk] at hx
              exact hacc x hx
            · rw [if_neg hvk] at hx
              rcases mem_mapSet _ _ _ _ hx with h1 | h1
              · rw [h1]
                exact svzDistinct_svzDedup _
              · exact hacc x h1
          by_cases hne : (nestedConfigsFor configs k).isEmpty
          · rw [dif_pos hne] at hx
            exact hacc1 x hx
          · rw [dif_neg hne] at hx
            rcases mem_mergeMaps _ _ _ hx with h1 | h1
            · exact hacc1 x h1
            · have hlt : envSize (nestedConfigsFor configs k) < envSize configs :=
                envSize_nestedConfigsFor_lt _ _ (by simpa using hne)
              exact ih (envSize (nestedConfigsFor configs k))
                (Nat.lt_of_lt_of_le hlt hsize) _ _ le_rfl x h1
      exact go (allKeysOf configs) [] (by simp) e he

/-- C3 amended: the collector deduplicates by SameValueZero, not by
deep/structural equality: primitive values appearing in several
environments are recorded once (SameValueZero compares them by value),
while arrays and objects — compared by reference, and always
reference-distinct across parsed documents — are recorded once per
environment that holds them; consequently every recorded value set is
pairwise SameValueZero-distinct. -/
theorem collector_sets_svz_distinct (configs : EnvSet) (pre p : String)
    (s : List ConfigValue) (h : mapGet (collectPropertyValues configs pre) p = some s) :
    s.Pairwise (fun w v => sameValueZero w v = false) :=
  collect_entries_svzDistinct (envSize configs) configs pre le_rfl (p, s) (mapGet_mem h)

/-- C3 amended, instantiated at the counterexample's environment set. -/
theorem collector_sets_svz_distinct_witness :
    ([c3Arr, c3Arr] : List ConfigValue).Pairwise (fun w v => sameValueZero w v = false) :=
  collector_sets_svz_distinct c3Envs "" "tags" [c3Arr, c3Arr]
    (by simp [c3Envs, c3Arr, collectPropertyValues, collectGo, allKeysOf, validEnvs,
      dedupStrings, insertString, objKeys, valuesForKey, rawLeafValuesAt, leafSelect,
      nestedSelect, nestedConfigsFor, svzDedup, setAdd, sameValueZero, lookupField,
      mapGet, mapSet, mergeMaps, joinPath, isPlainObject])

/-! ## Claim C6 -/

/-- C6: the validator is a total function whose report is returned as
data (the embedding of a function that never throws); `valid` always
equals the emptiness of the diagnostics list, and with fewer than two
environments remaining after exclusion and object-kind filtering the
report is the trivially valid empty one. -/
theorem validateConfigurationConsistency_pure :
    ∀ (configs : EnvSet) (excl : Bool),
      ((validateConfigurationConsistency configs excl).valid =
        (validateConfigurationConsistency configs excl).errors.isEmpty) ∧
      ((comparisonEnvs configs excl).length < 2 →
        validateConfigurationConsistency configs excl =
          ⟨true, []⟩) := by
  intro configs excl
  unfold validateConfigurationConsistency
  by_cases h2 : (comparisonEnvs configs excl).length < 2
  · rw [if_pos h2]
    exact ⟨rfl, fun _ => rfl⟩
  · rw [if_neg h2]
    exact ⟨rfl, fun h => absurd h h2⟩

/-! ## Claim C5 -/

/-- C5: with `excludeDefault = true` the name `default` never enters
the comparison set; no issue lists it among the environments that have
or lack a path; every reported path belongs to some comparison (hence
non-default) environment — so a path defined only in `default` is
never reported — and every diagnostic string renders one such issue. -/
theorem validator_excludes_default :
    ∀ configs : EnvSet,
      "default" ∉ comparisonEnvs configs true ∧
      (∀ i ∈ consistencyIssues configs true,
        "default" ∉ i.envsWith ∧ "default" ∉ i.missingEnvs ∧
        ∃ env ∈ comparisonEnvs configs true, env ≠ "default" ∧
          i.path ∈ envPathSet configs env) ∧
      (∀ e ∈ (validateConfigurationConsistency configs true).errors,
        ∃ i ∈ consistencyIssues configs true, e = issueMessage i) := by
  intro configs
  have hdef : "default" ∉ comparisonEnvs configs true := by
    intro hmem
    unfold comparisonEnvs at hmem
    rw [List.mem_filter] at hmem
    simp at hmem
  refine ⟨hdef, ?_, ?_⟩
  · intro i hi
    unfold consistencyIssues at hi
    rw [List.mem_filterMap] at hi
    obtain ⟨p, hp, hfp⟩ := hi
    by_cases hme : (List.filter
        (fun env => !(List.filter
          (fun env => (envPathSet configs env).contains p)
          (comparisonEnvs configs true)).contains env)
        (comparisonEnvs configs true)).isEmpty
    · rw [if_pos hme] at hfp
      exact absurd hfp (by simp)
    · rw [if_neg hme] at hfp
      have hi' : i = ⟨p,
          List.filter (fun env => (envPathSet configs env).contains p)
            (comparisonEnvs configs true),
          List.filter
            (fun env => !(List.filter
              (fun env => (envPathSet configs env).contains p)
              (comparisonEnvs configs true)).contains env)
            (comparisonEnvs configs true)⟩ := by
        simpa using hfp.symm
      subst hi'
      refine ⟨?_, ?_, ?_⟩
      · intro hmem
        exact hdef (List.mem_of_mem_filter hmem)
      · intro hmem
        exact hdef (List.mem_of_mem_filter hmem)
      · have hp' : p ∈ List.flatten ((comparisonEnvs configs true).map
            (fun env => envPathSet configs env)) := by
          have := (mem_dedupStrings _ p).mp hp
          simpa using this
        rw [List.mem_flatten] at hp'
        obtain ⟨l, hl, hpl⟩ := hp'
        rw [List.mem_map] at hl
        obtain ⟨env, henv, rfl⟩ := hl
        exact ⟨env, henv, fun h => hdef (h ▸ henv), hpl⟩
  · intro e he
    unfold validateConfigurationConsistency at he
    by_cases h2 : (comparisonEnvs configs true).length < 2
    · rw [if_pos h2] at he
      exact absurd he (by simp)
    · rw [if_neg h2] at he
      simp only at he
      rw [List.mem_map] at he
      obtain ⟨i, hi, rfl⟩ := he
      exact ⟨i, hi, rfl⟩

/-! ## Claim C10 -/

/-- The path-separator character. -/
def dotChar : Char := Char.ofNat 46

/-- A key without the separator character. -/
def dotFreeKey (k : String) : Bool := decide (dotChar ∉ k.data)

/-- All keys of an object tree, at every nesting level, are free of the
separator character. -/
def dotFreeFields : List (String × ConfigValue) → Bool
  | [] => true
  | (k, ConfigValue.obj g) :: rest => dotFreeKey k && (dotFreeFields g && dotFreeFields rest)
  | (k, _) :: rest => dotFreeKey k && dotFreeFields rest

theorem str_ext {a b : String} (h : a.data = b.data) : a = b := String.ext h

theorem dot_data : ("." : String).data = [dotChar] := by decide

theorem not_mem_of_dotFreeKey {k : String} (h : dotFreeKey k = true) :
    dotChar ∉ k.data := of_decide_eq_true h

theorem append_dot_cases_char (dc : Char) (b : List Char) :
    ∀ (a k r : List Char), dc ∉ k → a ++ dc :: k = b ++ dc :: r →
      (b = a ∧ r = k) ∨ ∃ c, a = b ++ dc :: c := by
  induction b with
  | nil =>
    intro a k r hk h
    cases a with
    | nil =>
      simp only [List.nil_append, List.cons.injEq] at h
      exact Or.inl ⟨rfl, h.2.symm⟩
    | cons x a' =>
      simp only [List.nil_append, List.cons_append, List.cons.injEq] at h
      exact Or.inr ⟨a', by simp [h.1]⟩
  | cons y b' ih =>
    intro a k r hk h
    cases a with
    | nil =>
      simp only [List.nil_append, List.cons_append, List.cons.injEq] at h
      exact absurd (by rw [h.2]; exact List.mem_append_right _ (List.mem_cons_self _ _)) hk
    | cons x a' =>
      simp only [List.cons_append, List.cons.injEq] at h
      rcases ih a' k r hk h.2 with ⟨hb, hr⟩ | ⟨c, hc⟩
      · refine Or.inl ⟨?_, hr⟩
        rw [h.1, hb]
      · exact Or.inr ⟨c, by simp [hc, h.1]⟩

theorem append_dot_cases_str (pre k q r : String) (hk : dotChar ∉ k.data)
    (h : pre ++ "." ++ k = q ++ "." ++ r) :
    (q = pre ∧ r = k) ∨ ∃ c : String, pre = q ++ "." ++ c := by
  have hd : pre.data ++ dotChar :: k.data = q.data ++ dotChar :: r.data := by
    have := congrArg String.data h
    simpa [String.data_append, dot_data, List.append_assoc, List.singleton_append] using this
  rcases append_dot_cases_char dotChar q.data pre.data k.data r.data hk hd with
    ⟨hb, hr⟩ | ⟨c, hc⟩
  · exact Or.inl ⟨str_ext hb, str_ext hr⟩
  · refine Or.inr ⟨⟨c⟩, str_ext ?_⟩
    simpa [String.data_append, dot_data, List.append_assoc, List.singleton_append] using hc

theorem dotFree_not_dot_split (k q r : String) (hk : dotChar ∉ k.data) :
    k ≠ q ++ "." ++ r := by
  intro h
  apply hk
  rw [h]
  show dotChar ∈ (q ++ "." ++ r).data
  simp only [String.data_append, dot_data, List.mem_append, List.mem_singleton]
  exact Or.inl (Or.inr rfl)

theorem getPathsList_prefix_aux :
    ∀ (n : Nat) (fields : List (String × ConfigValue)) (pre : String),
      sizeOf fields ≤ n → dotFreeFields fields = true →
      ∀ p ∈ getPathsList fields pre, ∀ q r : String, p = q ++ "." ++ r →
        q ∈ getPathsList fields pre ∨ (∃ c, pre = q ++ "." ++ c) ∨
          (q = pre ∧ pre ≠ "") := by
  intro n
  induction n using Nat.strong_induction_on with
  | _ n ih =>
    intro fields pre hsz hdf p hp q r hpq
    match fields with
    | [] => simp [getPathsList] at hp
    | (k, v) :: rest =>
      have hfull : dotFreeKey k = true → ∀ q' r' : String,
          joinPath pre k = q' ++ "." ++ r' →
          (∃ c, pre = q' ++ "." ++ c) ∨ (q' = pre ∧ pre ≠ "") := by
        intro hk q' r' heq
        unfold joinPath at heq
        by_cases hpre : pre = ""
        · rw [if_pos hpre] at heq
          exact absurd heq (dotFree_not_dot_split _ _ _ (not_mem_of_dotFreeKey hk))
        · rw [if_neg hpre] at heq
          rcases append_dot_cases_str pre k q' r' (not_mem_of_dotFreeKey hk) heq with
            ⟨hqp, _⟩ | ⟨c, hc⟩
          · exact Or.inr ⟨hqp, hpre⟩
          · exact Or.inl ⟨c, hc⟩
      cases v with
      | obj g =>
        simp only [dotFreeFields, Bool.and_eq_true] at hdf
        obtain ⟨hk, hg, hrest⟩ := hdf
        have hexp : getPathsList ((k, ConfigValue.obj g) :: rest) pre =
            joinPath pre k ::
              (getPathsList g (joinPath pre k) ++ getPathsList rest pre) := by
          simp [getPathsList]
        rw [hexp] at hp ⊢
        rcases List.mem_cons.mp hp with hp1 | hp1
        · rcases hfull hk _ _ (hp1 ▸ hpq) with h | h
          · exact Or.inr (Or.inl h)
          · exact Or.inr (Or.inr h)
        · rcases List.mem_append.mp hp1 with hp2 | hp2
          · have hszg : sizeOf g < n := by
              have : sizeOf g < sizeOf ((k, ConfigValue.obj g) :: rest) := by
                simp only [List.cons.sizeOf_spec, Prod.mk.sizeOf_spec,
                  ConfigValue.obj.sizeOf_spec]
                omega
              omega
            rcases ih (sizeOf g) hszg g (joinPath pre k) le_rfl hg p hp2 q r hpq with
              h | h | h
            · exact Or.inl (List.mem_cons_of_mem _ (List.mem_append_left _ h))
            · obtain ⟨c, hc⟩ := h
              rcases hfull hk _ _ hc with h2 | h2
              · exact Or.inr (Or.inl h2)
              · exact Or.inr (Or.inr h2)
            · exact Or.inl (h.1 ▸ List.mem_cons_self _ _)
          · have hszr : sizeOf rest < n := by
              have : sizeOf rest < sizeOf ((k, ConfigValue.obj g) :: rest) := by
                simp only [List.cons.sizeOf_spec]
                omega
              omega
            rcases ih (sizeOf rest) hszr rest pre le_rfl hrest p hp2 q r hpq with
              h | h | h
            · exact Or.inl (List.mem_cons_of_mem _ (List.mem_append_right _ h))
            · exact Or.inr (Or.inl h)
            · exact Or.inr (Or.inr h)
      | str s =>
        simp only [dotFreeFields, Bool.and_eq_true] at hdf
        obtain ⟨hk, hrest⟩ := hdf
        have hexp : getPathsList ((k, ConfigValue.str s) :: rest) pre =
            joinPath pre k :: getPathsList rest pre := by
          simp [getPathsList]
        rw [hexp] at hp ⊢
        rcases List.mem_cons.mp hp with hp1 | hp1
        · rcases hfull hk _ _ (hp1 ▸ hpq) with h | h
          · exact Or.inr (Or.inl h)
          · exact Or.inr (Or.inr h)
        · have hszr : sizeOf rest < n := by
            have : sizeOf rest < sizeOf ((k, ConfigValue.str s) :: rest) := by
              simp only [List.cons.sizeOf_spec]
              omega
            omega
          rcases ih (sizeOf rest) hszr rest pre le_rfl hrest p hp1 q r hpq with
            h | h | h
          · exact Or.inl (List.mem_cons_of_mem _ h)
          · exact Or.inr (Or.inl h)
          · exact Or.inr (Or.inr h)
      | num m =>
        simp only [dotFreeFields, Bool.and_eq_true] at hdf
        obtain ⟨hk, hrest⟩ := hdf
        have hexp : getPathsList ((k, ConfigValue.num m) :: rest) pre =
            joinPath pre k :: getPathsList rest pre := by
          simp [getPathsList]
        rw [hexp] at hp ⊢
        rcases List.mem_cons.mp hp with hp1 | hp1
        · rcases hfull hk _ _ (hp1 ▸ hpq) with h | h
          · exact Or.inr (Or.inl h)
          · exact Or.inr (Or.inr h)
        · have hszr : sizeOf rest < n := by
            have : sizeOf rest < sizeOf ((k, ConfigValue.num m) :: rest) := by
              simp only [List.cons.sizeOf_spec]
              omega
            omega
          rcases ih (sizeOf rest) hszr rest pre le_rfl hrest p hp1 q r hpq with
            h | h | h
          · exact Or.inl (List.mem_cons_of_mem _ h)
          · exact Or.inr (Or.inl h)
          · exact Or.inr (Or.inr h)
      | bool x =>
        simp only [dotFreeFields, Bool.and_eq_true] at hdf
        obtain ⟨hk, hrest⟩ := hdf
        have hexp : getPathsList ((k, ConfigValue.bool x) :: rest) pre =
            joinPath pre k :: getPathsList rest pre := by
          simp [getPathsList]
        rw [hexp] at hp ⊢
        rcases List.mem_cons.mp hp with hp1 | hp1
        · rcases hfull hk _ _ (hp1 ▸ hpq) with h | h
          · exact Or.inr (Or.inl h)
          · exact Or.inr (Or.inr h)
        · have hszr : sizeOf rest < n := by
            have : sizeOf rest < sizeOf ((k, ConfigValue.bool x) :: rest) := by
              simp only [List.cons.sizeOf_spec]
              omega
            omega
          rcases ih (sizeOf rest) hszr rest pre le_rfl hrest p hp1 q r hpq with
            h | h | h
          · exact Or.inl (List.mem_cons_of_mem _ h)
          · exact Or.inr (Or.inl h)
          · exact Or.inr (Or.inr h)
      | null =>
        simp only [dotFreeFields, Bool.and_eq_true] at hdf
        obtain ⟨hk, hrest⟩ := hdf
        have hexp : getPathsList ((k, ConfigValue.null) :: rest) pre =
            joinPath pre k :: getPathsList rest pre := by
          simp [getPathsList]
        rw [hexp] at hp ⊢
        rcases List.mem_cons.mp hp with hp1 | hp1
        · rcases hfull hk _ _ (hp1 ▸ hpq) with h | h
          · exact Or.inr (Or.inl h)
          · exact Or.inr (Or.inr h)
        · have hszr : sizeOf rest < n := by
            have : sizeOf rest < sizeOf ((k, ConfigValue.null) :: rest) := by
              simp only [List.cons.sizeOf_spec]
              omega
            omega
          rcases ih (sizeOf rest) hszr rest pre le_rfl hrest p hp1 q r hpq with
            h | h | h
          · exact Or.inl (List.mem_cons_of_mem _ h)
          · exact Or.inr (Or.inl h)
          · exact Or.inr (Or.inr h)
      | arr es =>
        simp only [dotFreeFields, Bool.and_eq_true] at hdf
        obtain ⟨hk, hrest⟩ := hdf
        have hexp : getPathsList ((k, ConfigValue.arr es) :: rest) pre =
            joinPath pre k :: getPathsList rest pre := by
          simp [getPathsList]
        rw [hexp] at hp ⊢
        rcases List.mem_cons.mp hp with hp1 | hp1
        · rcases hfull hk _ _ (hp1 ▸ hpq) with h | h
          · exact Or.inr (Or.inl h)
          · exact Or.inr (Or.inr h)
        · have hszr : sizeOf rest < n := by
            have : sizeOf rest < sizeOf ((k, ConfigValue.arr es) :: rest) := by
              simp only [List.cons.sizeOf_spec]
              omega
            omega
          rcases ih (sizeOf rest) hszr rest pre le_rfl hrest p hp1 q r hpq with
            h | h | h
          · exact Or.inl (List.mem_cons_of_mem _ h)
          · exact Or.inr (Or.inl h)
          · exact Or.inr (Or.inr h)

/-- C10: for a configuration object whose keys (at every nesting
level) contain no `.`, the path set of `getConfigPaths` is
prefix-closed: cutting any member at any `.` (the cut prefix is
exactly a proper dot-separated prefix) yields another member, so the
consistency validator compares interior object nodes as well as
leaves. -/
theorem getConfigPaths_prefix_closed (fields : List (String × ConfigValue))
    (hdf : dotFreeFields fields = true) :
    ∀ p ∈ getConfigPaths fields "", ∀ q r : String,
      p = q ++ "." ++ r → q ∈ getConfigPaths fields "" := by
  intro p hp q r hpq
  rw [getConfigPaths, mem_dedupStrings] at hp ⊢
  rcases getPathsList_prefix_aux (sizeOf fields) fields "" le_rfl hdf p hp q r hpq with
    h | h | h
  · exact h
  · obtain ⟨c, hc⟩ := h
    have := congrArg String.data hc
    simp [String.data_append, dot_data] at this
  · exact absurd h.1.symm (by simpa using h.2)

/-- C10 instantiated: `{a: {b: {c: 1}}}` has path set
`{a, a.b, a.b.c}`; cutting `a.b.c` at its dots yields members. -/
theorem getConfigPaths_prefix_closed_witness :
    dotFreeFields [("a", ConfigValue.obj [("b", ConfigValue.obj [("c", ConfigValue.num 1)])])] = true ∧
    "a.b" ∈ getConfigPaths
      [("a", ConfigValue.obj [("b", ConfigValue.obj [("c", ConfigValue.num 1)])])] "" ∧
    "a" ∈ getConfigPaths
      [("a", ConfigValue.obj [("b", ConfigValue.obj [("c", ConfigValue.num 1)])])] "" := by
  refine ⟨by simp [dotFreeFields, dotFreeKey, dotChar], ?_, ?_⟩
  · exact getConfigPaths_prefix_closed _
      (by simp [dotFreeFields, dotFreeKey, dotChar])
      "a.b.c"
      (by simp [getConfigPaths, getPathsList, joinPath, dedupStrings, insertString])
      "a.b" "c" rfl
  · exact getConfigPaths_prefix_closed _
      (by simp [dotFreeFields, dotFreeKey, dotChar])
      "a.b"
      (by simp [getConfigPaths, getPathsList, joinPath, dedupStrings, insertString])
      "a" "b" rfl

/-! ## Shared lemmas about the collector's key structure -/

theorem lookupField_mem_keys {fs : List (String × ConfigValue)} {k : String}
    {v : ConfigValue} (h : lookupField fs k = some v) : (k, v) ∈ fs := by
  unfold lookupField at h
  cases hf : fs.find? (fun e => e.1 == k) with
  | none => rw [hf] at h; exact absurd h (by simp)
  | some p =>
    rw [hf] at h
    have hp : p ∈ fs := List.mem_of_find?_eq_some hf
    have hk : p.1 = k := by simpa using List.find?_some hf
    have hv : p.2 = v := by simpa using h
    have : p = (k, v) := by rw [← hk, ← hv]
    rw [← this]
    exact hp

theorem lookupField_isSome_of_mem {fs : List (String × ConfigValue)} {k : String}
    (h : k ∈ fs.map (fun e => e.1)) : (lookupField fs k).isSome := by
  unfold lookupField
  rw [List.mem_map] at h
  obtain ⟨e, he, hk⟩ := h
  have : (fs.find? (fun e => e.1 == k)).isSome := by
    rw [List.find?_isSome]
    exact ⟨e, he, by simp [hk]⟩
  cases hf : fs.find? (fun e => e.1 == k) with
  | none => rw [hf] at this; simp at this
  | some p => simp

theorem mem_allKeysOf {configs : EnvSet} {k : String} :
    k ∈ allKeysOf configs ↔ ∃ e ∈ validEnvs configs, k ∈ objKeys e.2 := by
  unfold allKeysOf
  rw [mem_dedupStrings, List.mem_flatten]
  constructor
  · rintro ⟨l, hl, hkl⟩
    rw [List.mem_map] at hl
    obtain ⟨e, he, rfl⟩ := hl
    exact ⟨e, he, hkl⟩
  · rintro ⟨e, he, hke⟩
    exact ⟨objKeys e.2, List.mem_map_of_mem _ he, hke⟩

theorem validEnvs_not_isEmpty_of_mem_allKeysOf {configs : EnvSet} {k : String}
    (h : k ∈ allKeysOf configs) : ¬ (validEnvs configs).isEmpty := by
  rw [mem_allKeysOf] at h
  obtain ⟨e, he, _⟩ := h
  intro hempty
  rw [List.isEmpty_iff] at hempty
  rw [hempty] at he
  exact absurd he (by simp)

theorem setAdd_ne_nil (s : List ConfigValue) (v : ConfigValue) (h : s ≠ []) :
    setAdd s v ≠ [] := by
  unfold setAdd
  split
  · exact h
  · simp

theorem svzDedup_ne_nil (l : List ConfigValue) (h : l ≠ []) : svzDedup l ≠ [] := by
  match l with
  | x :: t =>
    show (x :: t).foldl setAdd [] ≠ []
    rw [List.foldl_cons]
    have hx : setAdd [] x = [x] := by simp [setAdd]
    rw [hx]
    suffices hgen : ∀ (u : List ConfigValue) (acc : List ConfigValue), acc ≠ [] →
        u.foldl setAdd acc ≠ [] from hgen t [x] (by simp)
    intro u
    induction u with
    | nil => intro acc hacc; exact hacc
    | cons y u' ih =>
      intro acc hacc
      rw [List.foldl_cons]
      exact ih _ (setAdd_ne_nil _ _ hacc)

theorem valuesForKey_mem_allKeysOf {configs : EnvSet} {k : String}
    (h : valuesForKey configs k ≠ []) : k ∈ allKeysOf configs := by
  have hraw : rawLeafValuesAt configs k ≠ [] := by
    intro hr
    apply h
    unfold valuesForKey
    rw [hr]
    rfl
  unfold rawLeafValuesAt at hraw
  obtain ⟨e, he, hsel⟩ : ∃ e ∈ configs, (leafSelect k e).isSome := by
    by_contra hno
    push_neg at hno
    apply hraw
    rw [List.filterMap_eq_nil]
    intro e he
    have := hno e he
    cases hsel : leafSelect k e with
    | none => rfl
    | some v => rw [hsel] at this; simp at this
  cases hv : leafSelect k e with
  | none => rw [hv] at hsel; simp at hsel
  | some v =>
    obtain ⟨name, doc⟩ := e
    cases doc with
    | obj fs =>
      simp only [leafSelect] at hv
      cases hlk : lookupField fs k with
      | none => rw [hlk] at hv; simp at hv
      | some w =>
        rw [mem_allKeysOf]
        refine ⟨(name, ConfigValue.obj fs), ?_, ?_⟩
        · unfold validEnvs
          rw [List.mem_filter]
          exact ⟨he, by simp [isPlainObject]⟩
        · show k ∈ fs.map (fun e => e.1)
          rw [List.mem_map]
          exact ⟨(k, w), lookupField_mem_keys hlk, rfl⟩
    | str s => simp [leafSelect] at hv
    | num n => simp [leafSelect] at hv
    | bool b => simp [leafSelect] at hv
    | null => simp [leafSelect] at hv
    | arr es => simp [leafSelect] at hv

theorem nestedConfigsFor_mem_allKeysOf {configs : EnvSet} {k : String}
    (h : nestedConfigsFor configs k ≠ []) : k ∈ allKeysOf configs := by
  unfold nestedConfigsFor at h
  obtain ⟨e, he, hsel⟩ : ∃ e ∈ configs, (nestedSelect k e).isSome := by
    by_contra hno
    push_neg at hno
    apply h
    rw [List.filterMap_eq_nil]
    intro e he
    have := hno e he
    cases hsel : nestedSelect k e with
    | none => rfl
    | some v => rw [hsel] at this; simp at this
  cases hv : nestedSelect k e with
  | none => rw [hv] at hsel; simp at hsel
  | some v =>
    obtain ⟨name, doc⟩ := e
    cases doc with
    | obj fs =>
      simp only [nestedSelect] at hv
      cases hlk : lookupField fs k with
      | none => rw [hlk] at hv; simp at hv
      | some w =>
        rw [mem_allKeysOf]
        refine ⟨(name, ConfigValue.obj fs), ?_, ?_⟩
        · unfold validEnvs
          rw [List.mem_filter]
          exact ⟨he, by simp [isPlainObject]⟩
        · show k ∈ fs.map (fun e => e.1)
          rw [List.mem_map]
          exact ⟨(k, w), lookupField_mem_keys hlk, rfl⟩
    | str s => simp [nestedSelect] at hv
    | num n => simp [nestedSelect] at hv
    | bool b => simp [nestedSelect] at hv
    | null => simp [nestedSelect] at hv
    | arr es => simp [nestedSelect] at hv

theorem mem_insertSorted (s a : String) (l : List String) :
    a ∈ insertSorted s l ↔ a = s ∨ a ∈ l := by
  induction l with
  | nil => simp [insertSorted]
  | cons t ts ih =>
    unfold insertSorted
    by_cases h : s ≤ t
    · rw [if_pos h]
      simp [List.mem_cons]
    · rw [if_neg h]
      simp only [List.mem_cons, ih]
      tauto

theorem mem_sortStrings (l : List String) (a : String) :
    a ∈ sortStrings l ↔ a ∈ l := by
  unfold sortStrings
  induction l with
  | nil => simp
  | cons x t ih =>
    rw [List.foldr_cons]
    rw [mem_insertSorted]
    simp [ih]

/-! ## Claim C8 -/

theorem collectGo_preserves_isSome (configs : EnvSet) (pre : String) :
    ∀ (keys : List String) (acc : PathMap) (q : String),
      (mapGet acc q).isSome → (mapGet (collectGo configs pre keys acc) q).isSome := by
  intro keys
  induction keys with
  | nil =>
    intro acc q h
    simp only [collectGo]
    exact h
  | cons k rest ih =>
    intro acc q h
    simp only [collectGo]
    apply ih
    have hacc1 : (mapGet (if (valuesForKey configs k).isEmpty = true then acc
        else mapSet acc (joinPath pre k) (valuesForKey configs k)) q).isSome := by
      by_cases hv : (valuesForKey configs k).isEmpty = true
      · rw [if_pos hv]
        exact h
      · rw [if_neg hv, mapGet_mapSet]
        split
        · simp
        · exact h
    by_cases hn : (nestedConfigsFor configs k).isEmpty = true
    · rw [dif_pos hn]
      exact hacc1
    · rw [dif_neg hn, mapGet_mergeMaps_isSome]
      exact Or.inl hacc1

theorem collectGo_direct_isSome (configs : EnvSet) (pre : String) :
    ∀ (keys : List String) (acc : PathMap) (k : String), k ∈ keys →
      valuesForKey configs k ≠ [] →
      (mapGet (collectGo configs pre keys acc) (joinPath pre k)).isSome := by
  intro keys
  induction keys with
  | nil => intro acc k hk; exact absurd hk (by simp)
  | cons k0 rest ih =>
    intro acc k hk hv
    simp only [collectGo]
    rcases List.mem_cons.mp hk with rfl | hk'
    · apply collectGo_preserves_isSome
      have hv' : ¬ ((valuesForKey configs k).isEmpty = true) := by
        simpa [List.isEmpty_iff] using hv
      have hacc1 : (mapGet (if (valuesForKey configs k).isEmpty = true then acc
          else mapSet acc (joinPath pre k) (valuesForKey configs k))
          (joinPath pre k)).isSome := by
        rw [if_neg hv', mapGet_mapSet_same]
        simp
      by_cases hn : (nestedConfigsFor configs k).isEmpty = true
      · rw [dif_pos hn]
        exact hacc1
      · rw [dif_neg hn, mapGet_mergeMaps_isSome]
        exact Or.inl hacc1
    · exact ih _ k hk' hv

theorem collectGo_nested_isSome (configs : EnvSet) (pre : String) :
    ∀ (keys : List String) (acc : PathMap) (k : String) (q : String), k ∈ keys →
      (mapGet (collectPropertyValues (nestedConfigsFor configs k) (joinPath pre k)) q).isSome →
      (mapGet (collectGo configs pre keys acc) q).isSome := by
  intro keys
  induction keys with
  | nil => intro acc k q hk; exact absurd hk (by simp)
  | cons k0 rest ih =>
    intro acc k q hk hq
    simp only [collectGo]
    rcases List.mem_cons.mp hk with rfl | hk'
    · apply collectGo_preserves_isSome
      by_cases hn : (nestedConfigsFor configs k).isEmpty = true
      · exfalso
        rw [List.isEmpty_iff] at hn
        rw [hn] at hq
        have hempty : collectPropertyValues ([] : EnvSet) (joinPath pre k) = [] := by
          simp only [collectPropertyValues]
          rw [if_pos (by simp [validEnvs])]
        rw [hempty] at hq
        simp [mapGet_nil] at hq
      · rw [dif_neg hn, mapGet_mergeMaps_isSome]
        exact Or.inr hq
    · exact ih _ k q hk' hq

theorem collect_direct_isSome (configs : EnvSet) (pre : String) (k : String)
    (hv : valuesForKey configs k ≠ []) :
    (mapGet (collectPropertyValues configs pre) (joinPath pre k)).isSome := by
  have hk := valuesForKey_mem_allKeysOf hv
  simp only [collectPropertyValues]
  rw [if_neg (validEnvs_not_isEmpty_of_mem_allKeysOf hk)]
  exact collectGo_direct_isSome configs pre _ [] k hk hv

theorem collect_nested_isSome (configs : EnvSet) (pre : String) (k : String) (q : String)
    (hk : k ∈ allKeysOf configs)
    (hq : (mapGet (collectPropertyValues (nestedConfigsFor configs k) (joinPath pre k)) q).isSome) :
    (mapGet (collectPropertyValues configs pre) q).isSome := by
  simp only [collectPropertyValues]
  rw [if_neg (validEnvs_not_isEmpty_of_mem_allKeysOf hk)]
  exact collectGo_nested_isSome configs pre _ [] k q hk hq

theorem hitsFallback_aux :
    ∀ (n : Nat) (configs : EnvSet) (pv : PathMap) (pre : String), envSize configs ≤ n →
      (∀ q, (mapGet (collectPropertyValues configs pre) q).isSome →
        (mapGet pv q).isSome) →
      generateHitsFallback configs pv pre = false := by
  intro n
  induction n using Nat.strong_induction_on with
  | _ n ih =>
    intro configs pv pre hsz hsub
    simp only [generateHitsFallback]
    by_cases hve : (validEnvs configs).isEmpty = true
    · rw [if_pos hve]
    · rw [if_neg hve]
      have go : ∀ keys : List String, (∀ k ∈ keys, k ∈ allKeysOf configs) →
          goFallback configs pv pre keys = false := by
        intro keys
        induction keys with
        | nil =>
          intro _
          simp only [goFallback]
        | cons k rest ihk =>
          intro hks
          have hkall : k ∈ allKeysOf configs := hks k (by simp)
          simp only [goFallback]
          rw [Bool.or_eq_false_iff]
          refine ⟨?_, ihk (fun k' hk' => hks k' (List.mem_cons_of_mem _ hk'))⟩
          cases hpv : mapGet pv (joinPath pre k) with
          | some v => rfl
          | none =>
            have hnested : ¬ ((nestedConfigsFor configs k).isEmpty = true) := by
              intro hempty
              rw [List.isEmpty_iff] at hempty
              have hkall' := hkall
              rw [mem_allKeysOf] at hkall'
              obtain ⟨e, he, hke⟩ := hkall'
              have hecfg : e ∈ configs ∧ isPlainObject e.2 = true := by
                unfold validEnvs at he
                rw [List.mem_filter] at he
                exact ⟨he.1, by simpa using he.2⟩
              obtain ⟨name, doc⟩ := e
              cases doc with
              | obj fs =>
                have hlk : (lookupField fs k).isSome :=
                  lookupField_isSome_of_mem (by simpa [objKeys] using hke)
                cases hlkv : lookupField fs k with
                | none => rw [hlkv] at hlk; simp at hlk
                | some v0 =>
                  by_cases hobj : isPlainObject v0 = true
                  · cases v0 with
                    | obj g =>
                      have hmem : (name, ConfigValue.obj g) ∈
                          nestedConfigsFor configs k := by
                        unfold nestedConfigsFor
                        rw [List.mem_filterMap]
                        refine ⟨(name, ConfigValue.obj fs), hecfg.1, ?_⟩
                        simp only [nestedSelect]
                        rw [hlkv]
                      rw [hempty] at hmem
                      exact absurd hmem (by simp)
                    | str s => simp [isPlainObject] at hobj
                    | num m => simp [isPlainObject] at hobj
                    | bool b => simp [isPlainObject] at hobj
                    | null => simp [isPlainObject] at hobj
                    | arr es => simp [isPlainObject] at hobj
                  · have hraw : v0 ∈ rawLeafValuesAt configs k := by
                      unfold rawLeafValuesAt
                      rw [List.mem_filterMap]
                      refine ⟨(name, ConfigValue.obj fs), hecfg.1, ?_⟩
                      simp only [leafSelect]
                      rw [hlkv]
                      simp [hobj]
                    have hvals : valuesForKey configs k ≠ [] := by
                      apply svzDedup_ne_nil
                      intro hnil
                      rw [hnil] at hraw
                      exact absurd hraw (by simp)
                    have := hsub (joinPath pre k)
                      (collect_direct_isSome configs pre k hvals)
                    rw [hpv] at this
                    simp at this
              | str s => simp [isPlainObject] at hecfg
              | num m => simp [isPlainObject] at hecfg
              | bool b => simp [isPlainObject] at hecfg
              | null => simp [isPlainObject] at hecfg
              | arr es => simp [isPlainObject] at hecfg
            show (if h : List.isEmpty (nestedConfigsFor configs k) = true then true
                else generateHitsFallback (nestedConfigsFor configs k) pv
                  (joinPath pre k)) = false
            rw [dif_neg hnested]
            have hne : nestedConfigsFor configs k ≠ [] := by
              simpa [List.isEmpty_iff] using hnested
            have hlt : envSize (nestedConfigsFor configs k) < envSize configs :=
              envSize_nestedConfigsFor_lt _ _ hne
            apply ih (envSize (nestedConfigsFor configs k))
              (Nat.lt_of_lt_of_le hlt hsz) _ pv (joinPath pre k) le_rfl
            intro q hq
            exact hsub q (collect_nested_isSome configs pre k q hkall hq)
      exact go _ (fun k hk => (mem_sortStrings _ _).mp hk)

/-- C8: for every environment set, running the synthesizer on the
collector's own output (the evaluation instrumented by
`generateHitsFallback`, which mirrors
`generateInterfaceProperties (configs, collectPropertyValues configs, '', 0)`
branch for branch) never reaches the `readonly <key>: unknown`
fallback: every key in the union of keys either has its path in the
collected map or is an object in at least one environment. -/
theorem generateInterfaceProperties_no_fallback (configs : EnvSet) :
    generateHitsFallback configs (collectPropertyValues configs "") "" = false :=
  hitsFallback_aux (envSize configs) configs _ "" le_rfl (fun _ h => h)

/-! ## Path algebra for the bridge between the collector and the
occurrence semantics (claims C4 and C9) -/

theorem append_left_cancel_str {a b c : String} (h : a ++ b = a ++ c) : b = c := by
  have hd := congrArg String.data h
  simp only [String.data_append] at hd
  exact str_ext (List.append_cancel_left hd)

theorem dot_append_cancel {a b c : String} (h : a ++ "." ++ b = a ++ "." ++ c) :
    b = c :=
  append_left_cancel_str (a := a ++ ".") h

theorem append_dot_ne (a b : String) : a ++ "." ++ b ≠ a := by
  intro h
  have hd := congrArg (fun s : String => s.data.length) h
  simp only [String.data_append, List.length_append, dot_data,
    List.length_singleton] at hd
  omega

theorem append_dot_ne_empty (a b : String) : a ++ "." ++ b ≠ "" := by
  intro h
  have hd := congrArg (fun s : String => s.data.length) h
  have hnil : ("" : String).data = [] := rfl
  simp only [String.data_append, List.length_append, dot_data,
    List.length_singleton, hnil, List.length_nil] at hd
  omega

theorem first_dot_inj_char (d : Char) :
    ∀ (a b s s' : List Char), d ∉ a → d ∉ b → a ++ d :: s = b ++ d :: s' →
      a = b ∧ s = s' := by
  intro a
  induction a with
  | nil =>
    intro b s s' _ hb h
    cases b with
    | nil => simp at h; exact ⟨rfl, h⟩
    | cons y b' =>
      simp only [List.nil_append, List.cons_append, List.cons.injEq] at h
      exact absurd (h.1 ▸ List.mem_cons_self y b') hb
  | cons x a' ih =>
    intro b s s' ha hb h
    cases b with
    | nil =>
      simp only [List.cons_append, List.nil_append, List.cons.injEq] at h
      exact absurd (h.1 ▸ List.mem_cons_self x a') ha
    | cons y b' =>
      simp only [List.cons_append, List.cons.injEq] at h
      have ha' : d ∉ a' := fun hm => ha (List.mem_cons_of_mem _ hm)
      have hb' : d ∉ b' := fun hm => hb (List.mem_cons_of_mem _ hm)
      obtain ⟨hab, hss⟩ := ih b' s s' ha' hb' h.2
      exact ⟨by rw [h.1, hab], hss⟩

theorem first_dot_inj {k k' s s' : String} (hk : dotChar ∉ k.data)
    (hk' : dotChar ∉ k'.data) (h : k ++ "." ++ s = k' ++ "." ++ s') :
    k = k' ∧ s = s' := by
  have hd : k.data ++ dotChar :: s.data = k'.data ++ dotChar :: s'.data := by
    have := congrArg String.data h
    simpa [String.data_append, dot_data, List.append_assoc, List.singleton_append]
      using this
  obtain ⟨h1, h2⟩ := first_dot_inj_char dotChar k.data k'.data s.data s'.data hk hk' hd
  exact ⟨str_ext h1, str_ext h2⟩

theorem joinPath_empty (k : String) : joinPath "" k = k := by
  simp [joinPath]

theorem joinPath_of_ne {p : String} (k : String) (h : p ≠ "") :
    joinPath p k = p ++ "." ++ k := by
  simp [joinPath, h]

theorem joinPath_ne_empty {p k : String} (hk : k ≠ "") : joinPath p k ≠ "" := by
  by_cases hp : p = ""
  · rw [hp, joinPath_empty]
    exact hk
  · rw [joinPath_of_ne k hp]
    exact append_dot_ne_empty _ _

/-- Fold of `joinPath` over a key chain: the dotted path a chain of
keys denotes below a prefix. -/
def joinFrom (pre : String) : List String → String
  | [] => pre
  | k :: ks => joinFrom (joinPath pre k) ks

theorem joinFrom_shape :
    ∀ (ks : List String) (p : String), p ≠ "" → ks ≠ [] →
      ∃ s, joinFrom p ks = p ++ "." ++ s := by
  intro ks
  induction ks with
  | nil => intro p _ h; exact absurd rfl h
  | cons k t ih =>
    intro p hp _
    cases t with
    | nil =>
      refine ⟨k, ?_⟩
      show joinPath p k = p ++ "." ++ k
      exact joinPath_of_ne k hp
    | cons k2 t2 =>
      have hp' : joinPath p k ≠ "" := by
        rw [joinPath_of_ne k hp]
        exact append_dot_ne_empty _ _
      obtain ⟨s', hs'⟩ := ih (joinPath p k) hp' (by simp)
      refine ⟨k ++ "." ++ s', ?_⟩
      show joinFrom (joinPath p k) (k2 :: t2) = _
      rw [hs', joinPath_of_ne k hp]
      simp [String.append_assoc]

/-- A key fit for dotted paths: non-empty and free of the separator. -/
def niceKey (k : String) : Bool := decide (k ≠ "") && dotFreeKey k

theorem niceKey_ne {k : String} (h : niceKey k = true) : k ≠ "" := by
  simp only [niceKey, Bool.and_eq_true, decide_eq_true_eq] at h
  exact h.1

theorem niceKey_dotFree {k : String} (h : niceKey k = true) : dotChar ∉ k.data := by
  simp only [niceKey, Bool.and_eq_true] at h
  exact not_mem_of_dotFreeKey h.2

/-- All keys of an object tree, at every nesting level, are nice. -/
def niceFields : List (String × ConfigValue) → Bool
  | [] => true
  | (k, ConfigValue.obj g) :: rest => niceKey k && (niceFields g && niceFields rest)
  | (k, _) :: rest => niceKey k && niceFields rest

/-- Every environment document has nice keys throughout. -/
def niceEnvs (configs : EnvSet) : Bool :=
  configs.all (fun e =>
    match e.2 with
    | ConfigValue.obj fs => niceFields fs
    | _ => true)

theorem niceFields_split {e : String × ConfigValue}
    {rest : List (String × ConfigValue)} (hn : niceFields (e :: rest) = true) :
    niceKey e.1 = true ∧ niceFields rest = true ∧
      (∀ g, e.2 = ConfigValue.obj g → niceFields g = true) := by
  obtain ⟨ek, ev⟩ := e
  cases ev with
  | obj g =>
    simp only [niceFields, Bool.and_eq_true] at hn
    refine ⟨hn.1, hn.2.2, ?_⟩
    intro g' hg
    have : g = g' := by injection hg
    rw [← this]
    exact hn.2.1
  | str s =>
    simp only [niceFields, Bool.and_eq_true] at hn
    exact ⟨hn.1, hn.2, fun g hg => by simp at hg⟩
  | num n =>
    simp only [niceFields, Bool.and_eq_true] at hn
    exact ⟨hn.1, hn.2, fun g hg => by simp at hg⟩
  | bool b =>
    simp only [niceFields, Bool.and_eq_true] at hn
    exact ⟨hn.1, hn.2, fun g hg => by simp at hg⟩
  | null =>
    simp only [niceFields, Bool.and_eq_true] at hn
    exact ⟨hn.1, hn.2, fun g hg => by simp at hg⟩
  | arr es =>
    simp only [niceFields, Bool.and_eq_true] at hn
    exact ⟨hn.1, hn.2, fun g hg => by simp at hg⟩

theorem niceFields_key : ∀ (fs : List (String × ConfigValue)),
    niceFields fs = true → ∀ p ∈ fs, niceKey p.1 = true := by
  intro fs
  induction fs with
  | nil => intro _ p hp; exact absurd hp (by simp)
  | cons e rest ih =>
    intro hn p hp
    have hs := niceFields_split hn
    rcases List.mem_cons.mp hp with rfl | hp'
    · exact hs.1
    · exact ih hs.2.1 p hp'

theorem niceFields_nested : ∀ (fs : List (String × ConfigValue)),
    niceFields fs = true → ∀ (k : String) (g : List (String × ConfigValue)),
    (k, ConfigValue.obj g) ∈ fs → niceFields g = true := by
  intro fs
  induction fs with
  | nil => intro _ k g hm; exact absurd hm (by simp)
  | cons e rest ih =>
    intro hn k g hm
    have hs := niceFields_split hn
    rcases List.mem_cons.mp hm with he | hm'
    · exact hs.2.2 g (by rw [← he])
    · exact ih hs.2.1 k g hm'

theorem niceEnvs_doc {configs : EnvSet} {e : String × ConfigValue}
    (h : niceEnvs configs = true) (he : e ∈ configs) :
    ∀ fs, e.2 = ConfigValue.obj fs → niceFields fs = true := by
  intro fs hfs
  unfold niceEnvs at h
  rw [List.all_eq_true] at h
  have := h e he
  rw [hfs] at this
  exact this

theorem allKeysOf_nice {configs : EnvSet} (h : niceEnvs configs = true) :
    ∀ k ∈ allKeysOf configs, niceKey k = true := by
  intro k hk
  rw [mem_allKeysOf] at hk
  obtain ⟨e, he, hke⟩ := hk
  unfold validEnvs at he
  rw [List.mem_filter] at he
  obtain ⟨name, doc⟩ := e
  cases doc with
  | obj fs =>
    have hnf := niceEnvs_doc h he.1 fs rfl
    simp only [objKeys] at hke
    rw [List.mem_map] at hke
    obtain ⟨p, hp, hpk⟩ := hke
    rw [← hpk]
    exact niceFields_key fs hnf p hp
  | str s => simp [isPlainObject] at he
  | num n => simp [isPlainObject] at he
  | bool b => simp [isPlainObject] at he
  | null => simp [isPlainObject] at he
  | arr es => simp [isPlainObject] at he

theorem niceEnvs_nestedConfigsFor {configs : EnvSet} (k : String)
    (h : niceEnvs configs = true) :
    niceEnvs (nestedConfigsFor configs k) = true := by
  unfold niceEnvs
  rw [List.all_eq_true]
  intro e he
  unfold nestedConfigsFor at he
  rw [List.mem_filterMap] at he
  obtain ⟨a, ha, hsel⟩ := he
  obtain ⟨name, doc⟩ := a
  cases doc with
  | obj fs =>
    simp only [nestedSelect] at hsel
    cases hlk : lookupField fs k with
    | none => rw [hlk] at hsel; exact absurd hsel (by simp)
    | some v =>
      rw [hlk] at hsel
      cases v with
      | obj g =>
        have he' : e = (name, ConfigValue.obj g) := by simpa using hsel.symm
        rw [he']
        have hnf := niceEnvs_doc h ha fs rfl
        exact niceFields_nested fs hnf k g (lookupField_mem_keys hlk)
      | str s => exact absurd hsel (by simp)
      | num n => exact absurd hsel (by simp)
      | bool b => exact absurd hsel (by simp)
      | null => exact absurd hsel (by simp)
      | arr es => exact absurd hsel (by simp)
  | str s => simp [nestedSelect] at hsel
  | num n => simp [nestedSelect] at hsel
  | bool b => simp [nestedSelect] at hsel
  | null => simp [nestedSelect] at hsel
  | arr es => simp [nestedSelect] at hsel

/-- The non-object occurrences a dot-separated key chain denotes
across the environment set, in environment order: descend the chain
through object values (exactly as the collector routes nested
objects), and at the last key take every environment's non-object
value. -/
def occList (configs : EnvSet) : List String → List ConfigValue
  | [] => []
  | [k] => rawLeafValuesAt configs k
  | k :: ks => occList (nestedConfigsFor configs k) ks

theorem occList_nil_env : ∀ ks : List String, occList [] ks = [] := by
  intro ks
  match ks with
  | [] => rfl
  | [k] => rfl
  | k :: k2 :: t =>
    show occList (nestedConfigsFor [] k) (k2 :: t) = []
    have : nestedConfigsFor [] k = [] := rfl
    rw [this]
    exact occList_nil_env (k2 :: t)

theorem mapSet_keys (m : PathMap) (k : String) (v : List ConfigValue) :
    (mapSet m k v).map Prod.fst = m.map Prod.fst ∨
      (mapSet m k v).map Prod.fst = m.map Prod.fst ++ [k] := by
  unfold mapSet
  by_cases hany : m.any (fun e => e.1 = k)
  · rw [if_pos hany]
    left
    rw [List.map_map]
    apply List.map_congr_left
    intro e _
    by_cases he : e.1 = k
    · simp [he]
    · simp [he]
  · rw [if_neg hany]
    right
    simp

theorem mapSet_keys_nodup {m : PathMap} {k : String} {v : List ConfigValue}
    (h : (m.map Prod.fst).Nodup) : ((mapSet m k v).map Prod.fst).Nodup := by
  unfold mapSet
  by_cases hany : m.any (fun e => e.1 = k)
  · rw [if_pos hany]
    have hkeys : (m.map (fun e => if e.1 = k then (k, v) else e)).map Prod.fst =
        m.map Prod.fst := by
      rw [List.map_map]
      apply List.map_congr_left
      intro e _
      by_cases he : e.1 = k
      · simp [he]
      · simp [he]
    rw [hkeys]
    exact h
  · rw [if_neg hany]
    rw [List.map_append, List.nodup_append]
    refine ⟨h, by simp, ?_⟩
    intro a ha hb
    simp only [List.map_cons, List.map_nil, List.mem_singleton] at hb
    subst hb
    rw [List.mem_map] at ha
    obtain ⟨e, he, hek⟩ := ha
    rw [List.any_eq_true] at hany
    push_neg at hany
    exact hany e he (decide_eq_true hek)

theorem mergeMaps_keys_nodup {a b : PathMap} (h : (a.map Prod.fst).Nodup) :
    ((mergeMaps a b).map Prod.fst).Nodup := by
  induction b generalizing a with
  | nil => exact h
  | cons x t ih =>
    show ((mergeMaps (mapSet a x.1 x.2) t).map Prod.fst).Nodup
    exact ih (mapSet_keys_nodup h)

theorem collect_keys_nodup (configs : EnvSet) (pre : String) :
    ((collectPropertyValues configs pre).map Prod.fst).Nodup := by
  simp only [collectPropertyValues]
  by_cases hve : (validEnvs configs).isEmpty = true
  · rw [if_pos hve]
    simp
  · rw [if_neg hve]
    have go : ∀ (keys : List String) (acc : PathMap), (acc.map Prod.fst).Nodup →
        ((collectGo configs pre keys acc).map Prod.fst).Nodup := by
      intro keys
      induction keys with
      | nil =>
        intro acc h
        simpa only [collectGo] using h
      | cons k rest ih =>
        intro acc h
        simp only [collectGo]
        apply ih
        have hacc1 : ((if (valuesForKey configs k).isEmpty = true then acc
            else mapSet acc (joinPath pre k) (valuesForKey configs k)).map
              Prod.fst).Nodup := by
          by_cases hv : (valuesForKey configs k).isEmpty = true
          · rwa [if_pos hv]
          · rw [if_neg hv]
            exact mapSet_keys_nodup h
        by_cases hn : (nestedConfigsFor configs k).isEmpty = true
        · rwa [dif_pos hn]
        · rw [dif_neg hn]
          exact mergeMaps_keys_nodup hacc1
    exact go _ [] (by simp)

theorem mapGet_mergeMaps_skip {a b : PathMap} {q : String}
    (h : ∀ e ∈ b, e.1 ≠ q) : mapGet (mergeMaps a b) q = mapGet a q := by
  induction b generalizing a with
  | nil => rfl
  | cons x t ih =>
    show mapGet (mergeMaps (mapSet a x.1 x.2) t) q = _
    rw [ih (fun e he => h e (List.mem_cons_of_mem _ he))]
    apply mapGet_mapSet_other
    intro hq
    exact h x (by simp) hq.symm

theorem mapGet_mergeMaps_win {b : PathMap} {q : String} {v : List ConfigValue}
    (hnd : (b.map Prod.fst).Nodup) (h : mapGet b q = some v) :
    ∀ a : PathMap, mapGet (mergeMaps a b) q = some v := by
  induction b with
  | nil => rw [mapGet_nil] at h; exact absurd h (by simp)
  | cons x t ih =>
    intro a
    rw [mapGet_cons] at h
    show mapGet (mergeMaps (mapSet a x.1 x.2) t) q = some v
    rw [List.map_cons, List.nodup_cons] at hnd
    by_cases hx : x.1 = q
    · rw [if_pos hx] at h
      have hq : ∀ e ∈ t, e.1 ≠ q := by
        intro e he heq
        apply hnd.1
        rw [hx, ← heq]
        exact List.mem_map_of_mem Prod.fst he
      rw [mapGet_mergeMaps_skip hq, ← hx, mapGet_mapSet_same]
      exact h
    · rw [if_neg hx] at h
      exact ih hnd.2 h (mapSet a x.1 x.2)

theorem collect_keys_shape :
    ∀ (n : Nat) (configs : EnvSet) (p : String), envSize configs ≤ n → p ≠ "" →
      ∀ e ∈ collectPropertyValues configs p, ∃ s, e.1 = p ++ "." ++ s := by
  intro n
  induction n using Nat.strong_induction_on with
  | _ n ih =>
    intro configs p hsz hp e he
    simp only [collectPropertyValues] at he
    by_cases hve : (validEnvs configs).isEmpty = true
    · rw [if_pos hve] at he
      exact absurd he (by simp)
    · rw [if_neg hve] at he
      have go : ∀ (keys : List String) (acc : PathMap),
          (∀ e ∈ acc, ∃ s, e.1 = p ++ "." ++ s) →
          ∀ e ∈ collectGo configs p keys acc, ∃ s, e.1 = p ++ "." ++ s := by
        intro keys
        induction keys with
        | nil =>
          intro acc hacc e he
          rw [collectGo] at he
          exact hacc e he
        | cons k rest ihk =>
          intro acc hacc e he
          rw [collectGo] at he
          refine ihk _ ?_ e he
          intro x hx
          have hacc1 : ∀ x ∈ (if (valuesForKey configs k).isEmpty = true then acc
              else mapSet acc (joinPath p k) (valuesForKey configs k)),
              ∃ s, x.1 = p ++ "." ++ s := by
            intro x hx
            by_cases hv : (valuesForKey configs k).isEmpty = true
            · rw [if_pos hv] at hx
              exact hacc x hx
            · rw [if_neg hv] at hx
              rcases mem_mapSet _ _ _ _ hx with h1 | h1
              · refine ⟨k, ?_⟩
                rw [h1]
                exact joinPath_of_ne k hp
              · exact hacc x h1
          by_cases hn : (nestedConfigsFor configs k).isEmpty = true
          · rw [dif_pos hn] at hx
            exact hacc1 x hx
          · rw [dif_neg hn] at hx
            rcases mem_mergeMaps _ _ _ hx with h1 | h1
            · exact hacc1 x h1
            · have hne : nestedConfigsFor configs k ≠ [] := by
                simpa [List.isEmpty_iff] using hn
              have hlt : envSize (nestedConfigsFor configs k) < envSize configs :=
                envSize_nestedConfigsFor_lt _ _ hne
              have hp' : joinPath p k ≠ "" := by
                rw [joinPath_of_ne k hp]
                exact append_dot_ne_empty _ _
              obtain ⟨s', hs'⟩ := ih (envSize (nestedConfigsFor configs k))
                (Nat.lt_of_lt_of_le hlt hsz) _ (joinPath p k) le_rfl hp' x h1
              refine ⟨k ++ "." ++ s', ?_⟩
              rw [hs', joinPath_of_ne k hp]
              simp [String.append_assoc]
      exact go _ [] (by simp) e he

theorem nodup_insertString {l : List String} (s : String) (h : l.Nodup) :
    (insertString l s).Nodup := by
  unfold insertString
  by_cases hm : s ∈ l
  · rwa [if_pos hm]
  · rw [if_neg hm]
    simpa [List.nodup_append] using ⟨h, hm⟩

theorem nodup_dedupStrings (l : List String) : (dedupStrings l).Nodup := by
  unfold dedupStrings
  suffices h : ∀ acc : List String, acc.Nodup → (l.foldl insertString acc).Nodup from
    h [] (by simp)
  induction l with
  | nil => intro acc hacc; exact hacc
  | cons s t ih =>
    intro acc hacc
    rw [List.foldl_cons]
    exact ih _ (nodup_insertString s hacc)

/-- A later key's direct path never collides with the target path that
starts with a different nice head key. -/
theorem direct_path_ne (pre k k'' P : String) (hk : niceKey k = true)
    (hk'' : niceKey k'' = true) (hne : k'' ≠ k)
    (hshape : P = joinPath pre k ∨ ∃ s, P = joinPath pre k ++ "." ++ s) :
    P ≠ joinPath pre k'' := by
  intro heq
  by_cases hpre : pre = ""
  · subst hpre
    rw [joinPath_empty] at heq
    rcases hshape with h | ⟨s, h⟩
    · rw [joinPath_empty] at h
      rw [h] at heq
      exact hne heq.symm
    · rw [joinPath_empty] at h
      rw [h] at heq
      exact dotFree_not_dot_split k'' k s (niceKey_dotFree hk'') heq.symm
  · rw [joinPath_of_ne _ hpre] at heq
    rcases hshape with h | ⟨s, h⟩
    · rw [joinPath_of_ne _ hpre] at h
      rw [h] at heq
      exact hne (dot_append_cancel heq).symm
    · rw [joinPath_of_ne _ hpre] at h
      rw [h] at heq
      have heq' : pre ++ "." ++ (k ++ "." ++ s) = pre ++ "." ++ k'' := by
        rw [← heq]
        simp [String.append_assoc]
      exact dotFree_not_dot_split k'' k s (niceKey_dotFree hk'')
        (dot_append_cancel heq').symm

/-- A key recorded by a nested recursion below key `k''` never
collides with the target path headed by the nice key `k` (unless
`k'' = k` and the target is exactly the direct path, which the nested
keys strictly extend). -/
theorem nested_path_ne (pre k k'' P q : String) (hk : niceKey k = true)
    (hk'' : niceKey k'' = true)
    (hshape : P = joinPath pre k ∨ ∃ s, P = joinPath pre k ++ "." ++ s)
    (hcase : k'' = k → P = joinPath pre k)
    (hq : ∃ s'', q = joinPath pre k'' ++ "." ++ s'') : q ≠ P := by
  obtain ⟨s'', hq⟩ := hq
  intro heq
  by_cases hkk : k'' = k
  · have hP := hcase hkk
    subst hkk
    rw [hq, hP] at heq
    exact append_dot_ne _ _ heq
  · by_cases hpre : pre = ""
    · subst hpre
      rw [joinPath_empty] at hq
      rcases hshape with h | ⟨s, h⟩
      · rw [joinPath_empty] at h
        rw [hq, h] at heq
        exact dotFree_not_dot_split k k'' s'' (niceKey_dotFree hk) heq.symm
      · rw [joinPath_empty] at h
        rw [hq, h] at heq
        exact hkk (first_dot_inj (niceKey_dotFree hk'') (niceKey_dotFree hk) heq).1
    · rw [joinPath_of_ne _ hpre] at hq
      rcases hshape with h | ⟨s, h⟩
      · rw [joinPath_of_ne _ hpre] at h
        rw [hq, h] at heq
        have heq' : pre ++ "." ++ (k'' ++ "." ++ s'') = pre ++ "." ++ k := by
          rw [← heq]
          simp [String.append_assoc]
        exact dotFree_not_dot_split k k'' s'' (niceKey_dotFree hk)
          (dot_append_cancel heq').symm
      · rw [joinPath_of_ne _ hpre] at h
        rw [hq, h] at heq
        have heq' : pre ++ "." ++ (k'' ++ "." ++ s'') =
            pre ++ "." ++ (k ++ "." ++ s) := by
          simpa [String.append_assoc] using heq
        exact hkk (first_dot_inj (niceKey_dotFree hk'') (niceKey_dotFree hk)
          (dot_append_cancel heq')).1

/-- Processing keys other than the target's head key never changes the
map at the target path. -/
theorem collectGo_preserves_target (configs : EnvSet) (pre : String) (P : String)
    (k : String) (hk : niceKey k = true)
    (hshape : P = joinPath pre k ∨ ∃ s, P = joinPath pre k ++ "." ++ s) :
    ∀ (keys : List String) (acc : PathMap),
      (∀ x ∈ keys, niceKey x = true ∧ x ≠ k) →
      mapGet (collectGo configs pre keys acc) P = mapGet acc P := by
  intro keys
  induction keys with
  | nil =>
    intro acc _
    rw [collectGo]
  | cons k0 rest ihk =>
    intro acc hks
    obtain ⟨hk0n, hk0ne⟩ := hks k0 (by simp)
    simp only [collectGo]
    rw [ihk _ (fun x hx => hks x (List.mem_cons_of_mem _ hx))]
    have hacc1 : mapGet (if (valuesForKey configs k0).isEmpty = true then acc
        else mapSet acc (joinPath pre k0) (valuesForKey configs k0)) P =
        mapGet acc P := by
      by_cases hv : (valuesForKey configs k0).isEmpty = true
      · rw [if_pos hv]
      · rw [if_neg hv]
        exact mapGet_mapSet_other _ _ _ _
          (direct_path_ne pre k k0 P hk hk0n hk0ne hshape)
    by_cases hn : (nestedConfigsFor configs k0).isEmpty = true
    · rw [dif_pos hn]
      exact hacc1
    · rw [dif_neg hn]
      rw [mapGet_mergeMaps_skip ?_]
      · exact hacc1
      · intro e he
        have hp0 : joinPath pre k0 ≠ "" := joinPath_ne_empty (niceKey_ne hk0n)
        obtain ⟨s'', hs''⟩ := collect_keys_shape
          (envSize (nestedConfigsFor configs k0)) _ _ le_rfl hp0 e he
        exact nested_path_ne pre k k0 P e.1 hk hk0n hshape
          (fun hkk => absurd hkk hk0ne) ⟨s'', hs''⟩

/-- Bridge between the collector and the occurrence semantics: with
nice keys throughout, the collector maps the dotted path of a key
chain with at least one non-object occurrence to exactly the
SameValueZero-set of those occurrences. -/
theorem collect_occ_aux :
    ∀ (n : Nat) (configs : EnvSet) (pre : String) (ks : List String),
      envSize configs ≤ n → niceEnvs configs = true → ks ≠ [] →
      (∀ x ∈ ks, niceKey x = true) → occList configs ks ≠ [] →
      mapGet (collectPropertyValues configs pre) (joinFrom pre ks) =
        some (svzDedup (occList configs ks)) := by
  intro n
  induction n using Nat.strong_induction_on with
  | _ n ih =>
    intro configs pre ks hsz hnice hne hksn hocc
    match ks with
    | [] => exact absurd rfl hne
    | k :: ks' =>
      have hkn : niceKey k = true := hksn k (by simp)
      have hkall : k ∈ allKeysOf configs := by
        cases ks' with
        | nil =>
          apply valuesForKey_mem_allKeysOf
          apply svzDedup_ne_nil
          exact hocc
        | cons k2 t2 =>
          apply nestedConfigsFor_mem_allKeysOf
          intro hnil
          apply hocc
          show occList (nestedConfigsFor configs k) (k2 :: t2) = []
          rw [hnil]
          exact occList_nil_env _
      simp only [collectPropertyValues]
      rw [if_neg (validEnvs_not_isEmpty_of_mem_allKeysOf hkall)]
      have hshape : joinFrom pre (k :: ks') = joinPath pre k ∨
          ∃ s, joinFrom pre (k :: ks') = joinPath pre k ++ "." ++ s := by
        cases ks' with
        | nil => exact Or.inl rfl
        | cons k2 t2 =>
          right
          exact joinFrom_shape (k2 :: t2) (joinPath pre k)
            (joinPath_ne_empty (niceKey_ne hkn)) (by simp)
      have go : ∀ (keys : List String) (acc : PathMap),
          keys.Nodup → (∀ x ∈ keys, x ∈ allKeysOf configs) → k ∈ keys →
          mapGet (collectGo configs pre keys acc) (joinFrom pre (k :: ks')) =
            some (svzDedup (occList configs (k :: ks'))) := by
        intro keys
        induction keys with
        | nil => intro acc _ _ hk; exact absurd hk (by simp)
        | cons k0 rest ihk =>
          intro acc hnd hall hkmem
          rw [List.nodup_cons] at hnd
          simp only [collectGo]
          rcases List.mem_cons.mp hkmem with rfl | hkrest
          · -- k0 = k: this step establishes the target entry
            have hval : mapGet (if h : (nestedConfigsFor configs k).isEmpty = true
                then (if (valuesForKey configs k).isEmpty = true then acc
                  else mapSet acc (joinPath pre k) (valuesForKey configs k))
                else mergeMaps (if (valuesForKey configs k).isEmpty = true then acc
                  else mapSet acc (joinPath pre k) (valuesForKey configs k))
                  (collectPropertyValues (nestedConfigsFor configs k)
                    (joinPath pre k)))
                (joinFrom pre (k :: ks')) =
                some (svzDedup (occList configs (k :: ks'))) := by
              cases ks' with
              | nil =>
                have hvne : valuesForKey configs k ≠ [] := svzDedup_ne_nil _ hocc
                have hv : ¬ ((valuesForKey configs k).isEmpty = true) := by
                  simpa [List.isEmpty_iff] using hvne
                have hP : joinFrom pre [k] = joinPath pre k := rfl
                have hacc1 : mapGet (if (valuesForKey configs k).isEmpty = true
                    then acc
                    else mapSet acc (joinPath pre k) (valuesForKey configs k))
                    (joinPath pre k) = some (valuesForKey configs k) := by
                  rw [if_neg hv, mapGet_mapSet_same]
                by_cases hn : (nestedConfigsFor configs k).isEmpty = true
                · rw [dif_pos hn, hP, hacc1]
                  rfl
                · rw [dif_neg hn, hP]
                  rw [mapGet_mergeMaps_skip ?_]
                  · rw [hacc1]
                    rfl
                  · intro e he
                    obtain ⟨s'', hs''⟩ := collect_keys_shape
                      (envSize (nestedConfigsFor configs k)) _ _ le_rfl
                      (joinPath_ne_empty (niceKey_ne hkn)) e he
                    rw [hs'']
                    exact fun h => append_dot_ne _ _ h
              | cons k2 t2 =>
                have hnested : nestedConfigsFor configs k ≠ [] := by
                  intro hnil
                  apply hocc
                  show occList (nestedConfigsFor configs k) (k2 :: t2) = []
                  rw [hnil]
                  exact occList_nil_env _
                have hn : ¬ ((nestedConfigsFor configs k).isEmpty = true) := by
                  simpa [List.isEmpty_iff] using hnested
                rw [dif_neg hn]
                have hlt : envSize (nestedConfigsFor configs k) < envSize configs :=
                  envSize_nestedConfigsFor_lt _ _ hnested
                have hocc' : occList (nestedConfigsFor configs k) (k2 :: t2) ≠ [] :=
                  hocc
                have hbval := ih (envSize (nestedConfigsFor configs k))
                  (Nat.lt_of_lt_of_le hlt hsz) (nestedConfigsFor configs k)
                  (joinPath pre k) (k2 :: t2) le_rfl
                  (niceEnvs_nestedConfigsFor k hnice) (by simp)
                  (fun x hx => hksn x (List.mem_cons_of_mem _ hx)) hocc'
                have hP : joinFrom pre (k :: k2 :: t2) =
                    joinFrom (joinPath pre k) (k2 :: t2) := rfl
                rw [hP]
                exact mapGet_mergeMaps_win (collect_keys_nodup _ _) hbval _
            -- the remaining keys never touch the target
            rw [collectGo_preserves_target configs pre _ k hkn hshape rest _ ?_]
            · exact hval
            · intro x hx
              refine ⟨allKeysOf_nice hnice x (hall x (List.mem_cons_of_mem _ hx)), ?_⟩
              intro hxk
              exact hnd.1 (hxk ▸ hx)
          · -- k is further on: recurse with the updated accumulator
            exact ihk _ hnd.2 (fun x hx => hall x (List.mem_cons_of_mem _ hx)) hkrest
      exact go (allKeysOf configs) [] (nodup_dedupStrings _) (fun x hx => hx) hkall

theorem setAdd_subset {acc : List ConfigValue} (x : ConfigValue) :
    ∀ w ∈ acc, w ∈ setAdd acc x := by
  intro w hw
  unfold setAdd
  split
  · exact hw
  · exact List.mem_append_left _ hw

/-- Every inserted value is covered by the resulting set: it is a
member, or some earlier member is SameValueZero-equal to it. -/
theorem svzDedup_covers (l : List ConfigValue) (v : ConfigValue) (hv : v ∈ l) :
    ∃ w ∈ svzDedup l, w = v ∨ sameValueZero w v = true := by
  unfold svzDedup
  suffices h : ∀ (u : List ConfigValue) (acc : List ConfigValue),
      (∃ w ∈ acc, w = v ∨ sameValueZero w v = true) ∨ v ∈ u →
      ∃ w ∈ u.foldl setAdd acc, w = v ∨ sameValueZero w v = true from
    h l [] (Or.inr hv)
  intro u
  induction u with
  | nil =>
    intro acc hcov
    rcases hcov with h | h
    · exact h
    · exact absurd h (by simp)
  | cons x t ih =>
    intro acc hcov
    rw [List.foldl_cons]
    rcases hcov with ⟨w, hw, hwv⟩ | hmem
    · exact ih _ (Or.inl ⟨w, setAdd_subset x w hw, hwv⟩)
    · rcases List.mem_cons.mp hmem with rfl | hmem'
      · refine ih _ (Or.inl ?_)
        unfold setAdd
        by_cases hany : acc.any (fun w => sameValueZero w v)
        · rw [if_pos hany]
          rw [List.any_eq_true] at hany
          obtain ⟨w, hw, hwv⟩ := hany
          exact ⟨w, hw, Or.inr hwv⟩
        · rw [if_neg hany]
          exact ⟨v, List.mem_append_right _ (by simp), Or.inl rfl⟩
      · exact ih _ (Or.inr hmem')

/-! ## Claim C4 -/

/-- A document whose literal key `a.b` and nested chain `a` → `b` both
denote the dotted path `a.b`. -/
def c4Envs : EnvSet :=
  [("env1", ConfigValue.obj
    [("a.b", ConfigValue.num 1), ("a", ConfigValue.obj [("b", ConfigValue.num 2)])])]

/-- C4 counterexample: the literal key `a.b` holds the non-object
occurrence `1` and the chain `a` → `b` holds the non-object occurrence
`2`, both at the dotted path `a.b`; the collector's merge overwrites,
so the recorded set `{2}` misses the occurrence `1` — the path does
not map to the set of all its occurrences. -/
theorem collector_dotted_key_cex :
    rawLeafValuesAt c4Envs "a.b" = [ConfigValue.num 1] ∧
    occList c4Envs ["a", "b"] = [ConfigValue.num 2] ∧
    joinFrom "" ["a", "b"] = "a.b" ∧
    mapGet (collectPropertyValues c4Envs "") "a.b" = some [ConfigValue.num 2] ∧
    ConfigValue.num 1 ∉ [ConfigValue.num 2] := by
  refine ⟨rfl, rfl, rfl, ?_, by simp⟩
  simp [c4Envs, collectPropertyValues, collectGo, allKeysOf, validEnvs, dedupStrings,
    insertString, objKeys, valuesForKey, rawLeafValuesAt, leafSelect, nestedSelect,
    nestedConfigsFor, svzDedup, setAdd, sameValueZero, lookupField, mapGet, mapSet,
    mergeMaps, joinPath, isPlainObject]

/-- C4 amended: when every key (at every level) is non-empty and free
of `.`, every key chain with at least one non-object occurrence maps,
under its dotted path, to exactly the SameValueZero-set of all its
occurrences across all environments; the path appears exactly once
(the map's keys are duplicate-free), and every occurrence is
represented in the recorded set (itself, or an earlier
SameValueZero-equal member). -/
theorem collectPropertyValues_complete (configs : EnvSet) (ks : List String)
    (hnice : niceEnvs configs = true) (hne : ks ≠ [])
    (hks : ∀ x ∈ ks, niceKey x = true) (hocc : occList configs ks ≠ []) :
    ((collectPropertyValues configs "").map Prod.fst).Nodup ∧
    mapGet (collectPropertyValues configs "") (joinFrom "" ks) =
      some (svzDedup (occList configs ks)) ∧
    ∀ v ∈ occList configs ks, ∃ w ∈ svzDedup (occList configs ks),
      w = v ∨ sameValueZero w v = true :=
  ⟨collect_keys_nodup _ _,
   collect_occ_aux (envSize configs) configs "" ks le_rfl hnice hne hks hocc,
   fun v hv => svzDedup_covers _ v hv⟩

/-- Nice-keyed environments for the C4 witness. -/
def c4wEnvs : EnvSet :=
  [("default", ConfigValue.obj [("a", ConfigValue.obj [("b", ConfigValue.num 1)])]),
   ("prod", ConfigValue.obj [("a", ConfigValue.obj [("b", ConfigValue.num 2)])])]

/-- C4 amended, instantiated on a two-environment set with the nested
path `a.b` holding `1` and `2`. -/
theorem collectPropertyValues_complete_witness :
    ((collectPropertyValues c4wEnvs "").map Prod.fst).Nodup ∧
    mapGet (collectPropertyValues c4wEnvs "") (joinFrom "" ["a", "b"]) =
      some (svzDedup (occList c4wEnvs ["a", "b"])) ∧
    ∀ v ∈ occList c4wEnvs ["a", "b"], ∃ w ∈ svzDedup (occList c4wEnvs ["a", "b"]),
      w = v ∨ sameValueZero w v = true :=
  collectPropertyValues_complete c4wEnvs ["a", "b"]
    (by simp [c4wEnvs, niceEnvs, niceFields, niceKey, dotFreeKey, dotChar])
    (by simp)
    (by
      intro x hx
      fin_cases hx <;> simp [niceKey, dotFreeKey, dotChar])
    (by
      rw [show occList c4wEnvs ["a", "b"] = [ConfigValue.num 1, ConfigValue.num 2]
        from rfl]
      simp)

/-! ## Claim C9 -/

/-- Environments where the key `x.y` holds a number in one environment
and an object in the other, with a sibling chain `x` → `y` colliding
on the dotted path `x.y`. -/
def c9Envs : EnvSet :=
  [("env1", ConfigValue.obj
    [("x.y", ConfigValue.num 1), ("x", ConfigValue.obj [("y", ConfigValue.num 2)])]),
   ("env2", ConfigValue.obj [("x.y", ConfigValue.obj [("w", ConfigValue.num 3)])])]

theorem genProps_union_line_mem (configs : EnvSet) (pv : PathMap) (cp : String)
    (depth : Nat) (k : String) (s : List ConfigValue)
    (hget : mapGet pv (joinPath cp k) = some s) :
    ∀ keys : List String, k ∈ keys →
      (indentOf depth ++ "  readonly " ++ k ++ ": " ++ createUnionType s) ∈
        genProps configs pv cp depth keys := by
  intro keys
  induction keys with
  | nil => intro hk; exact absurd hk (by simp)
  | cons k0 rest ih =>
    intro hk
    simp only [genProps]
    rcases List.mem_cons.mp hk with rfl | hk'
    · rw [hget]
      exact List.mem_cons_self _ _
    · exact List.mem_cons_of_mem _ (ih hk')

/-- C9 counterexample: the key `x.y` has the non-object occurrence `1`
(env1) and an object occurrence (env2) — a kind disagreement — yet the
value set the synthesizer renders for that path is `{2}` (the
colliding sibling chain's value), so the emitted member line is
`readonly x.y: 2` and not the union `1` of the key's own non-object
occurrences. -/
theorem leaf_shadowing_cex :
    rawLeafValuesAt c9Envs "x.y" = [ConfigValue.num 1] ∧
    nestedConfigsFor c9Envs "x.y" =
      [("env2", ConfigValue.obj [("w", ConfigValue.num 3)])] ∧
    mapGet (collectPropertyValues c9Envs "") "x.y" = some [ConfigValue.num 2] ∧
    (indentOf 0 ++ "  readonly " ++ "x.y" ++ ": " ++
        createUnionType [ConfigValue.num 2]) ∈
      genProps c9Envs (collectPropertyValues c9Envs "") "" 0
        (sortStrings (allKeysOf c9Envs)) ∧
    (indentOf 0 ++ "  readonly " ++ "x.y" ++ ": " ++
        createUnionType [ConfigValue.num 2]) = "  readonly x.y: 2" ∧
    createUnionType (valuesForKey c9Envs "x.y") = "1" ∧
    ("  readonly x.y: 2" : String) ≠ "  readonly x.y: 1" := by
  have hget : mapGet (collectPropertyValues c9Envs "") "x.y" =
      some [ConfigValue.num 2] := by
    simp [c9Envs, collectPropertyValues, collectGo, allKeysOf, validEnvs,
      dedupStrings, insertString, objKeys, valuesForKey, rawLeafValuesAt,
      leafSelect, nestedSelect, nestedConfigsFor, svzDedup, setAdd, sameValueZero,
      lookupField, mapGet, mapSet, mergeMaps, joinPath, isPlainObject]
  refine ⟨rfl, rfl, hget, ?_, rfl, rfl, by decide⟩
  apply genProps_union_line_mem c9Envs _ "" 0 "x.y" [ConfigValue.num 2]
  · rw [joinPath_empty]
    exact hget
  · rw [mem_sortStrings]
    decide

/-- C9 amended: with non-empty, dot-free keys throughout, a key with
at least one non-object occurrence and an object occurrence at the
same path is collected as exactly the set of its non-object
occurrences, and the synthesizer emits, for that key, the single union
line over those occurrences — it does not recurse into the object
occurrence, whose inner keys therefore contribute no member lines for
that key. -/
theorem leaf_wins_shadowing (configs : EnvSet) (k : String)
    (hnice : niceEnvs configs = true)
    (hleaf : valuesForKey configs k ≠ [])
    (hobj : nestedConfigsFor configs k ≠ []) :
    mapGet (collectPropertyValues configs "") k = some (valuesForKey configs k) ∧
    (indentOf 0 ++ "  readonly " ++ k ++ ": " ++
        createUnionType (valuesForKey configs k)) ∈
      genProps configs (collectPropertyValues configs "") "" 0
        (sortStrings (allKeysOf configs)) := by
  have hkall : k ∈ allKeysOf configs := valuesForKey_mem_allKeysOf hleaf
  have hkn : niceKey k = true := allKeysOf_nice hnice k hkall
  have hocc : occList configs [k] ≠ [] := by
    intro hnil
    apply hleaf
    unfold valuesForKey
    rw [show rawLeafValuesAt configs k = occList configs [k] from rfl, hnil]
    rfl
  have hget : mapGet (collectPropertyValues configs "") k =
      some (valuesForKey configs k) := by
    have := collect_occ_aux (envSize configs) configs "" [k] le_rfl hnice
      (by simp) (by intro x hx; rw [show x = k by simpa using hx]; exact hkn) hocc
    rw [show joinFrom "" [k] = k from joinPath_empty k] at this
    exact this
  refine ⟨hget, ?_⟩
  apply genProps_union_line_mem configs _ "" 0 k (valuesForKey configs k)
  · rw [joinPath_empty]
    exact hget
  · rw [mem_sortStrings]
    exact hkall

/-- Nice-keyed environments for the C9 witness: `x` is a number in one
environment and an object in the other. -/
def c9wEnvs : EnvSet :=
  [("a", ConfigValue.obj [("x", ConfigValue.num 1)]),
   ("b", ConfigValue.obj [("x", ConfigValue.obj [("i", ConfigValue.num 2)])])]

/-- C9 amended, instantiated on a kind-disagreeing key with nice
names. -/
theorem leaf_wins_shadowing_witness :
    mapGet (collectPropertyValues c9wEnvs "") "x" =
      some (valuesForKey c9wEnvs "x") ∧
    (indentOf 0 ++ "  readonly " ++ "x" ++ ": " ++
        createUnionType (valuesForKey c9wEnvs "x")) ∈
      genProps c9wEnvs (collectPropertyValues c9wEnvs "") "" 0
        (sortStrings (allKeysOf c9wEnvs)) :=
  leaf_wins_shadowing c9wEnvs "x"
    (by simp [c9wEnvs, niceEnvs, niceFields, niceKey, dotFreeKey, dotChar])
    (by
      rw [show valuesForKey c9wEnvs "x" = [ConfigValue.num 1] from rfl]
      simp)
    (by
      rw [show nestedConfigsFor c9wEnvs "x" =
        [("b", ConfigValue.obj [("i", ConfigValue.num 2)])] from rfl]
      simp)

end ConfigManager
